import Mathlib

/-! # Scheduling policies and resource arbitration of `pa2.c`

A shallow embedding of the callbacks of `src/pa2.c` (`fcfs_acquire`, `fcfs_release`,
`fifo_schedule`, `sjf_schedule`, `stcf_schedule`, `rr_schedule`, `prio_acquire`,
`prio_release`, `prio_schedule`) as functions on an explicit simulation state, and
theorems about them.

Pointers to `struct process` are process handles (`Nat`); `NULL` is `none`.  The globals
`current`, `readyqueue` and `resources` are the fields of `State`.  A callback that hits a
failed `assert` or dereferences `NULL` returns `Except.error`.
-/

namespace PA2

/-! ## Data model -/

/-- Modelled from the spec: `process.h` is not part of the sources.  The status labels of a
process (spec section 3: READY, RUNNING, BLOCKED, FINISHED); `pa2.c` names `PROCESS_BLOCKED`
and `PROCESS_READY`. -/
inductive process_status where
  | PROCESS_READY
  | PROCESS_RUNNING
  | PROCESS_BLOCKED
  | PROCESS_EXIT
deriving DecidableEq, Repr

open process_status

/-- Modelled from the spec: `struct process` of `process.h` (not part of the sources), with the
fields `pa2.c` reads and writes: `status`, `age`, `lifespan`, `prio`.  The numeric fields are
C `unsigned int`s; the queue link `list` is represented by membership of the handle in a
queue. -/
structure process where
  status : process_status
  age : Nat
  lifespan : Nat
  prio : Nat
deriving DecidableEq, Repr

/-- Modelled from the spec: `struct resource` of `resource.h` (not part of the sources): an
optional owner and a wait queue. -/
structure resource where
  owner : Option Nat
  waitqueue : List Nat
deriving DecidableEq, Repr

/-- The globals `pa2.c` works on: the process objects (by handle), `current`, `readyqueue`
and the table `resources` (indexed by the valid resource ids). -/
structure State where
  procs : Nat → process
  current : Option Nat
  readyqueue : List Nat
  resources : Nat → resource

/-- The two ways a callback stops without returning: a failed `assert`, or a dereference of
`NULL`. -/
inductive Fault where
  | assertion_failed
  | null_dereference
deriving DecidableEq, Repr

/-! ## The ordered-queue primitive -/

/-- Modelled from the spec: `list_head.h` is not part of the sources.  Emptiness check of the
ordered queue (spec section 6). -/
def list_empty (q : List Nat) : Bool := q.isEmpty

/-- Modelled from the spec: `list_head.h` is not part of the sources.  Tail-append of the
ordered queue (spec section 6). -/
def list_add_tail (p : Nat) (q : List Nat) : List Nat := q ++ [p]

/-- Modelled from the spec: `list_head.h` is not part of the sources.  Removal-by-reference
of the ordered queue (spec section 6): the entry `p` leaves the queue, the others keep their
order. -/
def list_del_init (p : Nat) (q : List Nat) : List Nat := q.erase p

/-- Modelled from the spec: `list_head.h` is not part of the sources.  Head-peek of the
ordered queue (spec section 6). -/
def list_first_entry (q : List Nat) : Option Nat := q.head?

/-- Write `v` at index `i` of a table (an assignment through a pointer). -/
def store {α : Type} (f : Nat → α) (i : Nat) (v : α) : Nat → α :=
  fun j => if j = i then v else f j

/-- The assignment `p->status = st`. -/
def set_status (s : State) (p : Nat) (st : process_status) : State :=
  { s with procs := store s.procs p { s.procs p with status := st } }

/-- The assignment `r->owner = o` for `r = resources + resource_id`. -/
def set_owner (s : State) (resource_id : Nat) (o : Option Nat) : State :=
  { s with resources :=
      store s.resources resource_id { s.resources resource_id with owner := o } }

/-- The wait queue of `resources + resource_id` replaced by `q`. -/
def set_waitqueue (s : State) (resource_id : Nat) (q : List Nat) : State :=
  { s with resources :=
      store s.resources resource_id { s.resources resource_id with waitqueue := q } }

/-! ## Resource arbitration -/

/-- The function `fcfs_acquire` of `pa2.c`. -/
def fcfs_acquire (s : State) (resource_id : Nat) : Except Fault (Bool × State) :=
  match (s.resources resource_id).owner with
  | none =>
    -- r->owner = current; return true;
    .ok (true, set_owner s resource_id s.current)
  | some _ =>
    match s.current with
    | none => .error Fault.null_dereference
    | some c =>
      -- current->status = PROCESS_BLOCKED;
      let s1 := set_status s c PROCESS_BLOCKED
      -- list_add_tail(&current->list, &r->waitqueue);
      let s2 := set_waitqueue s1 resource_id
        (list_add_tail c (s1.resources resource_id).waitqueue)
      .ok (false, s2)

/-- The function `fcfs_release` of `pa2.c`. -/
def fcfs_release (s : State) (resource_id : Nat) : Except Fault State :=
  -- assert(r->owner == current);
  if (s.resources resource_id).owner ≠ s.current then .error Fault.assertion_failed
  else
    -- r->owner = NULL;
    let s1 := set_owner s resource_id none
    -- if (!list_empty(&r->waitqueue))
    match list_first_entry (s1.resources resource_id).waitqueue with
    | none => .ok s1
    | some waiter =>
      -- assert(waiter->status == PROCESS_BLOCKED);
      if (s1.procs waiter).status ≠ PROCESS_BLOCKED then .error Fault.assertion_failed
      else
        -- list_del_init(&waiter->list);
        let s2 := set_waitqueue s1 resource_id
          (list_del_init waiter (s1.resources resource_id).waitqueue)
        -- waiter->status = PROCESS_READY;
        let s3 := set_status s2 waiter PROCESS_READY
        -- list_add_tail(&waiter->list, &readyqueue);
        .ok { s3 with readyqueue := list_add_tail waiter s3.readyqueue }

/-- The function `prio_acquire` of `pa2.c`. -/
def prio_acquire (s : State) (resource_id : Nat) : Except Fault (Bool × State) :=
  match (s.resources resource_id).owner with
  | none =>
    .ok (true, set_owner s resource_id s.current)
  | some _ =>
    match s.current with
    | none => .error Fault.null_dereference
    | some c =>
      let s1 := set_status s c PROCESS_BLOCKED
      let s2 := set_waitqueue s1 resource_id
        (list_add_tail c (s1.resources resource_id).waitqueue)
      .ok (false, s2)

/-- The loop of `prio_release` and of `prio_schedule` over a queue: `best` is replaced by a
scanned entry whose `prio` is strictly greater. -/
def prio_scan (procs : Nat → process) (q : List Nat) (best : Nat) : Nat :=
  q.foldl (fun best pos => if (procs pos).prio > (procs best).prio then pos else best) best

/-- The function `prio_release` of `pa2.c`. -/
def prio_release (s : State) (resource_id : Nat) : Except Fault State :=
  -- assert(r->owner == current);
  if (s.resources resource_id).owner ≠ s.current then .error Fault.assertion_failed
  else
    -- r->owner = NULL;
    let s1 := set_owner s resource_id none
    match list_first_entry (s1.resources resource_id).waitqueue with
    | none => .ok s1
    | some first =>
      -- waiter = list_first_entry(...); list_for_each_entry_safe(...) ...
      let waiter := prio_scan s1.procs (s1.resources resource_id).waitqueue first
      -- assert(waiter->status == PROCESS_BLOCKED);
      if (s1.procs waiter).status ≠ PROCESS_BLOCKED then .error Fault.assertion_failed
      else
        let s2 := set_waitqueue s1 resource_id
          (list_del_init waiter (s1.resources resource_id).waitqueue)
        let s3 := set_status s2 waiter PROCESS_READY
        .ok { s3 with readyqueue := list_add_tail waiter s3.readyqueue }

/-! ## Scheduling policies -/

/-- The label `pick_next` of `fifo_schedule`. -/
def fifo_pick_next (s : State) : Except Fault (Option Nat × State) :=
  -- if (!list_empty(&readyqueue))
  match list_first_entry s.readyqueue with
  | none => .ok (none, s)
  | some next =>
    -- list_del_init(&next->list);
    .ok (some next, { s with readyqueue := list_del_init next s.readyqueue })

/-- The function `fifo_schedule` of `pa2.c`. -/
def fifo_schedule (s : State) : Except Fault (Option Nat × State) :=
  match s.current with
  | none => fifo_pick_next s
  | some c =>
    if (s.procs c).status = PROCESS_BLOCKED then fifo_pick_next s
    else if (s.procs c).age < (s.procs c).lifespan then .ok (some c, s)
    else fifo_pick_next s

/-- The loop of `sjf_schedule` over the ready queue, on the pair `(next, min_lifespan)`. -/
def sjf_scan (procs : Nat → process) (q : List Nat) (init : Option Nat × Nat) :
    Option Nat × Nat :=
  q.foldl (fun acc pos =>
    if (procs pos).lifespan < acc.2 then (some pos, (procs pos).lifespan) else acc) init

/-- The label `pick_next` of `sjf_schedule`; `min_lifespan` starts at `1e9`. -/
def sjf_pick_next (s : State) : Except Fault (Option Nat × State) :=
  if list_empty s.readyqueue then .ok (none, s)
  else
    match (sjf_scan s.procs s.readyqueue (none, 1000000000)).1 with
    | none =>
      -- list_del_init(&next->list) with next == NULL
      .error Fault.null_dereference
    | some next =>
      .ok (some next, { s with readyqueue := list_del_init next s.readyqueue })

/-- The function `sjf_schedule` of `pa2.c`. -/
def sjf_schedule (s : State) : Except Fault (Option Nat × State) :=
  match s.current with
  | none => sjf_pick_next s
  | some c =>
    if (s.procs c).status = PROCESS_BLOCKED then sjf_pick_next s
    else if (s.procs c).age < (s.procs c).lifespan then .ok (some c, s)
    else sjf_pick_next s

/-- The constant `MAX_TC = 1e8` of `stcf_schedule`. -/
def MAX_TC : Nat := 100000000

/-- The subtraction `a - b` of two C `unsigned int`s (32 bits). -/
def usub (a b : Nat) : Nat := (a + 4294967296 - b) % 4294967296

/-- The value `pos_tc = pos->lifespan - pos->age` of `stcf_schedule`. -/
def pos_tc (procs : Nat → process) (pos : Nat) : Nat :=
  usub (procs pos).lifespan (procs pos).age

/-- The loop of `stcf_schedule` over the ready queue, on the pair `(next, cur_tc)`. -/
def stcf_scan (procs : Nat → process) (q : List Nat) (init : Option Nat × Nat) :
    Option Nat × Nat :=
  q.foldl (fun acc pos =>
    if pos_tc procs pos < acc.2 then (some pos, pos_tc procs pos) else acc) init

/-- The label `pick_next` of `stcf_schedule`, entered with the value `cur_tc`. -/
def stcf_pick_next (s : State) (cur_tc : Nat) : Except Fault (Option Nat × State) :=
  if list_empty s.readyqueue then .ok (none, s)
  else
    match (stcf_scan s.procs s.readyqueue (none, cur_tc)).1 with
    | none =>
      -- if (next == NULL) return current;
      .ok (s.current, s)
    | some next =>
      -- else if (current && current->lifespan > current->age && next != NULL)
      --   list_add_tail(&current->list, &readyqueue);
      let q := match s.current with
        | none => s.readyqueue
        | some c =>
          if (s.procs c).lifespan > (s.procs c).age then list_add_tail c s.readyqueue
          else s.readyqueue
      -- list_del_init(&next->list);
      .ok (some next, { s with readyqueue := list_del_init next q })

/-- The function `stcf_schedule` of `pa2.c`. -/
def stcf_schedule (s : State) : Except Fault (Option Nat × State) :=
  match s.current with
  | none => stcf_pick_next s MAX_TC
  | some c =>
    if (s.procs c).status = PROCESS_BLOCKED then stcf_pick_next s MAX_TC
    else if list_empty s.readyqueue && (s.procs c).lifespan > (s.procs c).age then
      .ok (some c, s)
    else
      stcf_pick_next s
        (if (s.procs c).lifespan ≤ (s.procs c).age then MAX_TC
         else usub (s.procs c).lifespan (s.procs c).age)

/-- The label `pick_next` of `rr_schedule`. -/
def rr_pick_next (s : State) : Except Fault (Option Nat × State) :=
  match list_first_entry s.readyqueue with
  | none => .ok (none, s)
  | some next =>
    -- list_del_init(&next->list);
    let q := list_del_init next s.readyqueue
    -- if (current && current->lifespan > current->age)
    --   list_add_tail(&current->list, &readyqueue);
    let q := match s.current with
      | none => q
      | some c => if (s.procs c).lifespan > (s.procs c).age then list_add_tail c q else q
    .ok (some next, { s with readyqueue := q })

/-- The function `rr_schedule` of `pa2.c`. -/
def rr_schedule (s : State) : Except Fault (Option Nat × State) :=
  match s.current with
  | none => rr_pick_next s
  | some c =>
    if (s.procs c).status = PROCESS_BLOCKED then rr_pick_next s
    else if list_empty s.readyqueue && (s.procs c).lifespan > (s.procs c).age then
      .ok (some c, s)
    else rr_pick_next s

/-- The label `pick_next` of `prio_schedule`. -/
def prio_pick_next (s : State) : Except Fault (Option Nat × State) :=
  match list_first_entry s.readyqueue with
  | none => .ok (none, s)
  | some first =>
    let next := prio_scan s.procs s.readyqueue first
    let del (q : List Nat) : Except Fault (Option Nat × State) :=
      .ok (some next, { s with readyqueue := list_del_init next q })
    match s.current with
    | none => del s.readyqueue
    | some c =>
      if (s.procs c).status = PROCESS_BLOCKED then del s.readyqueue
      else if (s.procs c).prio > (s.procs next).prio
          && (s.procs c).lifespan > (s.procs c).age then
        .ok (some c, s)
      else if (s.procs c).prio = (s.procs next).prio
          || (s.procs c).prio < (s.procs next).prio then
        if (s.procs c).lifespan > (s.procs c).age then
          del (list_add_tail c s.readyqueue)
        else del s.readyqueue
      else del s.readyqueue

/-- The function `prio_schedule` of `pa2.c`. -/
def prio_schedule (s : State) : Except Fault (Option Nat × State) :=
  match s.current with
  | none => prio_pick_next s
  | some c =>
    if (s.procs c).status = PROCESS_BLOCKED then prio_pick_next s
    else if list_empty s.readyqueue && (s.procs c).lifespan > (s.procs c).age then
      .ok (some c, s)
    else prio_pick_next s

/-! ## Concrete states used to run the definitions -/

/-- A process with the given lifespan, age and priority. -/
def mkproc (st : process_status) (lifespan age prio : Nat) : process :=
  { status := st, age := age, lifespan := lifespan, prio := prio }

/-- A free resource with an empty wait queue. -/
def free_resource : resource := { owner := none, waitqueue := [] }

/-- Three processes: `1` is running, `2` and `3` are BLOCKED with priorities 1 and 7; every
other handle is a READY process. -/
def demo_procs : Nat → process := fun p =>
  if p = 1 then mkproc PROCESS_RUNNING 5 1 3
  else if p = 2 then mkproc PROCESS_BLOCKED 2 0 1
  else if p = 3 then mkproc PROCESS_BLOCKED 8 0 7
  else mkproc PROCESS_READY 4 0 0

/-- Process `1` is current and owns resource `0`, on which `2` and `3` wait (in that order);
process `4` is ready; every other resource is free. -/
def demo_owned : State :=
  { procs := demo_procs
    current := some 1
    readyqueue := [4]
    resources := fun i => if i = 0 then { owner := some 1, waitqueue := [2, 3] }
      else free_resource }

/-- What the claims on `acquire` say of one acquire function, at a state whose current
process is `c`. -/
def AcquireContract (acquire : State → Nat → Except Fault (Bool × State))
    (s : State) (resource_id c : Nat) : Prop :=
  ∃ ret s', acquire s resource_id = .ok (ret, s') ∧
    (ret = true ↔ (s.resources resource_id).owner = none) ∧
    ((s.resources resource_id).owner = none →
      (s'.resources resource_id).owner = some c ∧
      (s'.resources resource_id).waitqueue = (s.resources resource_id).waitqueue ∧
      (∀ j, j ≠ resource_id → s'.resources j = s.resources j) ∧
      s'.readyqueue = s.readyqueue ∧ s'.procs = s.procs ∧ s'.current = s.current) ∧
    (∀ o, (s.resources resource_id).owner = some o →
      ret = false ∧
      (∀ j, (s'.resources j).owner = (s.resources j).owner) ∧
      s'.procs c = { s.procs c with status := PROCESS_BLOCKED } ∧
      (∀ p, p ≠ c → s'.procs p = s.procs p) ∧
      (s'.resources resource_id).waitqueue = (s.resources resource_id).waitqueue ++ [c] ∧
      (∀ j, j ≠ resource_id → s'.resources j = s.resources j) ∧
      s'.readyqueue = s.readyqueue ∧ s'.current = s.current)

/-- The waiter that FCFS arbitration selects: the head of the wait queue. -/
def FcfsSelected (s : State) (resource_id w : Nat) : Prop :=
  ∃ ws, (s.resources resource_id).waitqueue = w :: ws

/-- The waiter that priority arbitration selects: the earliest waiter among those of the
greatest priority in the wait queue. -/
def PrioSelected (s : State) (resource_id w : Nat) : Prop :=
  ∃ pre post, (s.resources resource_id).waitqueue = pre ++ w :: post ∧
    (∀ p ∈ pre, (s.procs p).prio < (s.procs w).prio) ∧
    (∀ p ∈ post, (s.procs p).prio ≤ (s.procs w).prio)

/-- What the claims on misuse say of one release function, `Selected s resource_id w` telling
that `w` is the waiter the function selects to wake. -/
def ReleaseContract (release : State → Nat → Except Fault State)
    (Selected : State → Nat → Nat → Prop) (s : State) (resource_id : Nat) : Prop :=
  ((s.resources resource_id).owner ≠ s.current →
    release s resource_id = .error Fault.assertion_failed) ∧
  (∀ c, s.current = some c → (s.resources resource_id).owner = none →
    release s resource_id = .error Fault.assertion_failed) ∧
  (∀ w, Selected s resource_id w → (s.procs w).status ≠ PROCESS_BLOCKED →
    release s resource_id = .error Fault.assertion_failed) ∧
  ((∃ s', release s resource_id = .ok s') ↔
    ((s.resources resource_id).owner = s.current ∧
      ∀ w, Selected s resource_id w → (s.procs w).status = PROCESS_BLOCKED))

/-- The current process is present, not BLOCKED and unfinished (`age < lifespan`). -/
def current_runnable (s : State) : Prop :=
  match s.current with
  | none => False
  | some c => (s.procs c).status ≠ PROCESS_BLOCKED ∧ (s.procs c).age < (s.procs c).lifespan

/-- What is appended to the ready queue for the current process: `current` itself when it
exists and is unfinished (`age < lifespan`), nothing otherwise. -/
def requeued (s : State) : List Nat :=
  match s.current with
  | none => []
  | some c => if (s.procs c).age < (s.procs c).lifespan then [c] else []

/-- Jobs `1`, `2`, `3` of lifespans 5, 2, 8 (the lifespans of the spec's examples), all READY
with age 0 and priority 0; every other handle is a READY process of lifespan 4. -/
def jobs : Nat → process := fun p =>
  if p = 1 then mkproc PROCESS_READY 5 0 0
  else if p = 2 then mkproc PROCESS_READY 2 0 0
  else if p = 3 then mkproc PROCESS_READY 8 0 0
  else mkproc PROCESS_READY 4 0 0

/-- Tick 0 of the spec's examples: no current process, jobs `1`, `2`, `3` ready. -/
def all_ready : State :=
  { procs := jobs, current := none, readyqueue := [1, 2, 3], resources := fun _ => free_resource }

/-- Job `1` has run one tick and is current (lifespan 5, age 1); job `2` (lifespan 2) is
ready. -/
def one_running : State :=
  { procs := store jobs 1 (mkproc PROCESS_RUNNING 5 1 0)
    current := some 1, readyqueue := [2], resources := fun _ => free_resource }

/-- Job `2` has run to completion and is still current (lifespan 2, age 2); jobs `1` and `3`
are ready. -/
def one_finished : State :=
  { procs := store jobs 2 (mkproc PROCESS_RUNNING 2 2 0)
    current := some 2, readyqueue := [1, 3], resources := fun _ => free_resource }

/-- The remaining time `lifespan - age` of a process (spec glossary). -/
def remaining (p : process) : Nat := p.lifespan - p.age

/-- The fields `age` and `lifespan` of every process fit a C `unsigned int` (32 bits). -/
def unsigned_fields (s : State) : Prop :=
  ∀ p, (s.procs p).age < 4294967296 ∧ (s.procs p).lifespan < 4294967296

/-- The scan for the first entry of the smallest key below a bound: the common shape of the
loops `sjf_scan` and `stcf_scan`. -/
def min_scan (key : Nat → Nat) (q : List Nat) (init : Option Nat × Nat) : Option Nat × Nat :=
  q.foldl (fun acc pos => if key pos < acc.2 then (some pos, key pos) else acc) init

/-- No current process; the only ready process `1` has lifespan `1000000000` and age 0. -/
def sjf_sentinel_state : State :=
  { procs := fun _ => mkproc PROCESS_READY 1000000000 0 0
    current := none, readyqueue := [1], resources := fun _ => free_resource }

/-- No current process; the only ready process `1` has lifespan `100000000` and age 0. -/
def stcf_sentinel_state : State :=
  { procs := fun _ => mkproc PROCESS_READY 100000000 0 0
    current := none, readyqueue := [1], resources := fun _ => free_resource }

/-- The value `cur_tc` with which `stcf_schedule` enters its scan: the remaining time of the
current process when it is present, not BLOCKED and unfinished, and `MAX_TC` otherwise. -/
def stcf_bound (s : State) : Nat :=
  match s.current with
  | none => MAX_TC
  | some c =>
    if (s.procs c).status ≠ PROCESS_BLOCKED ∧ (s.procs c).age < (s.procs c).lifespan then
      remaining (s.procs c)
    else MAX_TC

/-- A state in which process `1` is current while resource `0` is owned by process `5`, and
resource `1` has no owner. -/
def demo_foreign : State :=
  { procs := demo_procs
    current := some 1
    readyqueue := [4]
    resources := fun i => if i = 0 then { owner := some 5, waitqueue := [2, 3] }
      else free_resource }

/-- Job `1` (lifespan 5, age 3, so remaining time 2) is current; job `2` (lifespan 2, age 0)
and job `3` (lifespan 8) are ready. -/
def tie_running : State :=
  { procs := store jobs 1 (mkproc PROCESS_RUNNING 5 3 0)
    current := some 1, readyqueue := [2, 3], resources := fun _ => free_resource }

/-- What `prio_schedule` appends to the ready queue when it dequeues: `current` itself when it
exists, is not BLOCKED and is unfinished (`age < lifespan`), nothing otherwise. -/
def prio_requeued (s : State) : List Nat :=
  match s.current with
  | none => []
  | some c =>
    if (s.procs c).status ≠ PROCESS_BLOCKED ∧ (s.procs c).age < (s.procs c).lifespan then [c]
    else []

/-- Processes `1` and `2` of priority 5 and process `3` of priority 2, all of lifespan 3 and
age 0; `1` is RUNNING, the others are READY. -/
def prio_procs : Nat → process := fun p =>
  if p = 1 then mkproc PROCESS_RUNNING 3 0 5
  else if p = 2 then mkproc PROCESS_READY 3 0 5
  else mkproc PROCESS_READY 3 0 2

/-- Process `1` (priority 5) is current; `3` (priority 2) and `2` (priority 5) are ready, in
that order. -/
def prio_tie : State :=
  { procs := prio_procs, current := some 1, readyqueue := [3, 2]
    resources := fun _ => free_resource }

/-- Process `1` (priority 5) is current; only `3` (priority 2) is ready. -/
def prio_top : State :=
  { procs := prio_procs, current := some 1, readyqueue := [3]
    resources := fun _ => free_resource }

/-- The idle state: no current process and nothing ready. -/
def idle_state : State :=
  { procs := jobs, current := none, readyqueue := [], resources := fun _ => free_resource }

/-- Process `1` (priority 5, unfinished) is current; `2` (priority 5) is ready. -/
def prio_equal : State :=
  { procs := fun p => if p = 1 then mkproc PROCESS_RUNNING 3 1 5 else mkproc PROCESS_READY 3 0 5
    current := some 1, readyqueue := [2], resources := fun _ => free_resource }

/-- The wait-queue invariant of the spec: every process in a wait queue is BLOCKED and is in
no other queue (neither the ready queue, nor another wait queue, nor twice in its own), and
no ready process is BLOCKED. -/
def WaitInv (s : State) : Prop :=
  (∀ i, ∀ p ∈ (s.resources i).waitqueue, (s.procs p).status = PROCESS_BLOCKED) ∧
  (∀ i, ∀ p ∈ (s.resources i).waitqueue, p ∉ s.readyqueue) ∧
  (∀ i j, ∀ p ∈ (s.resources i).waitqueue, p ∈ (s.resources j).waitqueue → i = j) ∧
  (∀ i, (s.resources i).waitqueue.Nodup) ∧
  (∀ p ∈ s.readyqueue, (s.procs p).status ≠ PROCESS_BLOCKED)

/-- The current process, if any, is in no queue. -/
def current_unqueued (s : State) : Prop :=
  ∀ c, s.current = some c → c ∉ s.readyqueue ∧ ∀ i, c ∉ (s.resources i).waitqueue

/-- Process `1` (lifespan 5, age 1) is running and about to request resource `0`, which is
owned by the READY process `3` (lifespan 8) waiting in the ready queue; no process waits on
any resource. -/
def contended : State :=
  { procs := fun p => if p = 1 then mkproc PROCESS_RUNNING 5 1 0 else mkproc PROCESS_READY 8 0 0
    current := some 1
    readyqueue := [3]
    resources := fun i => if i = 0 then { owner := some 3, waitqueue := [] } else free_resource }

/-- What the claim that only runnable processes are scheduled says of one schedule function
at one state: the call returns, its result is none, or the current process when that is not
BLOCKED and unfinished, or a process of the ready queue, and it is none only when the ready
queue is empty. -/
def OnlyRunnable (schedule : State → Except Fault (Option Nat × State)) (s : State) : Prop :=
  ∃ r s', schedule s = .ok (r, s') ∧
    (r = none ∨
      (∃ c, r = some c ∧ s.current = some c ∧ (s.procs c).status ≠ PROCESS_BLOCKED ∧
        (s.procs c).age < (s.procs c).lifespan) ∨
      (∃ p, r = some p ∧ p ∈ s.readyqueue)) ∧
    (r = none → s.readyqueue = [])

/-- What the claim that scheduling conserves processes says of one schedule function at one
state: the call returns, and the ready queue after the call together with the returned
process is a rearrangement of the ready queue before the call together with the current
process when that is unfinished. -/
def Conserves (schedule : State → Except Fault (Option Nat × State)) (s : State) : Prop :=
  ∃ r s', schedule s = .ok (r, s') ∧
    List.Perm (s'.readyqueue ++ r.toList) (s.readyqueue ++ requeued s)

/-- Process `1` (lifespan 5, age 1) is current and BLOCKED on resource `0`, owned by process
`3`; the only ready process `2` has lifespan `100000000` and age 0. -/
def stcf_blocked_long : State :=
  { procs := fun p =>
      if p = 1 then mkproc PROCESS_BLOCKED 5 1 0 else mkproc PROCESS_READY 100000000 0 0
    current := some 1
    readyqueue := [2]
    resources := fun i => if i = 0 then { owner := some 3, waitqueue := [1] } else free_resource }

/-- Process `1` (lifespan 3, age 3) has run to completion and is still current; the only ready
process `2` has lifespan `100000000` and age 0. -/
def stcf_finished_long : State :=
  { procs := fun p =>
      if p = 1 then mkproc PROCESS_RUNNING 3 3 0 else mkproc PROCESS_READY 100000000 0 0
    current := some 1
    readyqueue := [2]
    resources := fun _ => free_resource }

/-! ## The driver -/

/-- Modelled from the spec: the tick-driving loop is not part of the sources.  One tick of
the driver, in the words of the claims on whole runs: it calls the `schedule` function of the
policy, makes the result the current process and advances the age of that process by one.  An
idle tick (result none) leaves no current process. -/
def driver_tick (schedule : State → Except Fault (Option Nat × State)) (s : State) :
    Except Fault (Option Nat × State) :=
  match schedule s with
  | .error e => .error e
  | .ok (none, s') => .ok (none, { s' with current := none })
  | .ok (some n, s') =>
    .ok (some n, { s' with
      current := some n
      procs := store s'.procs n { s'.procs n with age := (s'.procs n).age + 1 } })

/-- Modelled from the spec: the tick-driving loop is not part of the sources.  The run
sequence of the first `n` ticks from state `s`: the process that occupies the CPU at each
tick, none for an idle tick. -/
def run (schedule : State → Except Fault (Option Nat × State)) :
    Nat → State → Except Fault (List (Option Nat))
  | 0, _ => .ok []
  | n + 1, s =>
    match driver_tick schedule s with
    | .error e => .error e
    | .ok (r, s') =>
      match run schedule n s' with
      | .error e => .error e
      | .ok l => .ok (r :: l)

/-- The state after a tick in which `h` got the CPU and the ready queue became `q`. -/
def advance (s : State) (h : Nat) (q : List Nat) : State :=
  { s with
    readyqueue := q
    current := some h
    procs := store s.procs h { s.procs h with age := (s.procs h).age + 1 } }

/-- The run sequence in which each process of `q`, in order, occupies the CPU for `lifespan`
consecutive ticks. -/
def in_arrival_order (procs : Nat → process) (q : List Nat) : List (Option Nat) :=
  q.flatMap (fun p => List.replicate (procs p).lifespan (some p))

/-- The total number of ticks the processes of `q` need. -/
def total_lifespan (procs : Nat → process) (q : List Nat) : Nat :=
  (q.map (fun p => (procs p).lifespan)).sum

/-- The queue Round-Robin serves: the ready queue followed by the current process when that
exists and is unfinished. -/
def effective_queue (s : State) : List Nat := s.readyqueue ++ requeued s

/-- Tick 0 of the spec's Round-Robin example: no current process; the processes `1`, `2`, `3`,
each of lifespan 3 and age 0, are ready. -/
def rr_three : State :=
  { procs := fun _ => mkproc PROCESS_READY 3 0 0
    current := none, readyqueue := [1, 2, 3], resources := fun _ => free_resource }

/-- What a schedule function may change: from `s` to `s'` the processes and the resource
table are untouched, and every process of the new ready queue was in the old one or is the
current process, not BLOCKED. -/
def ReadyFrame (s s' : State) : Prop :=
  s'.procs = s.procs ∧ s'.resources = s.resources ∧
  ∀ p ∈ s'.readyqueue,
    p ∈ s.readyqueue ∨ (s.current = some p ∧ (s.procs p).status ≠ PROCESS_BLOCKED)

/-! ## Theorems -/

/-- Reading the index just written. -/
@[simp] theorem store_same {α : Type} (f : Nat → α) (i : Nat) (v : α) : store f i v i = v := by
  simp [store]

/-- Reading another index than the one written. -/
theorem store_other {α : Type} (f : Nat → α) (i j : Nat) (v : α) (h : j ≠ i) :
    store f i v j = f j := by
  simp [store, h]

/-- Removing an entry that sits after a prefix it does not occur in. -/
theorem list_del_init_split (w : Nat) (pre post : List Nat) (h : w ∉ pre) :
    list_del_init w (pre ++ w :: post) = pre ++ post := by
  unfold list_del_init
  rw [List.erase_append_right _ h, List.erase_cons_head]

/-- The priority scan started from `best`: either nothing in the queue beats `best`, or the
result is the first entry of the greatest priority, which beats `best`. -/
theorem prio_scan_spec (procs : Nat → process) (q : List Nat) :
    ∀ best : Nat,
      (prio_scan procs q best = best ∧ ∀ p ∈ q, (procs p).prio ≤ (procs best).prio) ∨
      (∃ pre post, q = pre ++ prio_scan procs q best :: post ∧
        (procs best).prio < (procs (prio_scan procs q best)).prio ∧
        (∀ p ∈ pre, (procs p).prio < (procs (prio_scan procs q best)).prio) ∧
        (∀ p ∈ post, (procs p).prio ≤ (procs (prio_scan procs q best)).prio)) := by
  induction q with
  | nil => intro best; left; simp [prio_scan]
  | cons x xs ih =>
    intro best
    by_cases hx : (procs x).prio > (procs best).prio
    · have hstep : prio_scan procs (x :: xs) best = prio_scan procs xs x := by
        simp [prio_scan, hx]
      rw [hstep]
      rcases ih x with ⟨heq, hall⟩ | ⟨pre, post, hsplit, hlt, hpre, hpost⟩
      · right
        refine ⟨[], xs, by simp [heq], by rw [heq]; exact hx, by simp, ?_⟩
        rw [heq]; exact hall
      · right
        refine ⟨x :: pre, post, by rw [List.cons_append, ← hsplit], by omega, ?_, hpost⟩
        intro p hp
        rcases List.mem_cons.mp hp with rfl | hp
        · exact hlt
        · exact hpre p hp
    · have hstep : prio_scan procs (x :: xs) best = prio_scan procs xs best := by
        simp [prio_scan, hx]
      rw [hstep]
      rcases ih best with ⟨heq, hall⟩ | ⟨pre, post, hsplit, hlt, hpre, hpost⟩
      · left
        refine ⟨heq, ?_⟩
        intro p hp
        rcases List.mem_cons.mp hp with rfl | hp
        · omega
        · exact hall p hp
      · right
        refine ⟨x :: pre, post, by rw [List.cons_append, ← hsplit], hlt, ?_, hpost⟩
        intro p hp
        rcases List.mem_cons.mp hp with rfl | hp
        · omega
        · exact hpre p hp

/-- The priority scan over a whole queue, started from its first entry, returns the first
entry of the greatest priority. -/
theorem prio_scan_first (procs : Nat → process) (h : Nat) (t : List Nat) :
    ∃ pre post, h :: t = pre ++ prio_scan procs (h :: t) h :: post ∧
      (∀ p ∈ pre, (procs p).prio < (procs (prio_scan procs (h :: t) h)).prio) ∧
      (∀ p ∈ post, (procs p).prio ≤ (procs (prio_scan procs (h :: t) h)).prio) := by
  have hstep : prio_scan procs (h :: t) h = prio_scan procs t h := by
    simp [prio_scan]
  rw [hstep]
  rcases prio_scan_spec procs t h with ⟨heq, hall⟩ | ⟨pre, post, hsplit, hlt, hpre, hpost⟩
  · refine ⟨[], t, by simp [heq], by simp, ?_⟩
    rw [heq]; exact hall
  · refine ⟨h :: pre, post, by rw [List.cons_append, ← hsplit], ?_, hpost⟩
    intro p hp
    rcases List.mem_cons.mp hp with rfl | hp
    · exact hlt
    · exact hpre p hp

/-- C1: for `fcfs_acquire` and `prio_acquire`, at every state with a current process `c` and
every resource id, acquire returns `true` exactly when the resource had no owner; then the
owner becomes `c` and no queue, status or other resource changes.  When the resource has an
owner, acquire returns `false`, no owner changes, the status of `c` becomes BLOCKED and `c` is
appended at the tail of the resource's wait queue, the earlier waiters keeping their order. -/
theorem acquire_contract (s : State) (resource_id c : Nat) (hc : s.current = some c) :
    AcquireContract fcfs_acquire s resource_id c ∧
    AcquireContract prio_acquire s resource_id c := by
  have key : AcquireContract fcfs_acquire s resource_id c := by
    unfold AcquireContract fcfs_acquire
    cases ho : (s.resources resource_id).owner with
    | none =>
      refine ⟨true, _, rfl, by simp, ?_, by simp⟩
      intro _
      refine ⟨by simp [set_owner, hc], by simp [set_owner, ho], ?_, rfl, rfl, rfl⟩
      intro j hj
      simp [set_owner, store, hj]
    | some o =>
      simp only [hc]
      refine ⟨false, _, rfl, by simp, by simp, ?_⟩
      intro o' _
      refine ⟨rfl, ?_, by simp [set_waitqueue, set_status], ?_,
        by simp [set_waitqueue, set_status, list_add_tail], ?_, rfl, hc⟩
      · intro j
        by_cases hj : j = resource_id
        · subst hj; simp [set_waitqueue, set_status]
        · simp [set_waitqueue, set_status, store, hj]
      · intro p hp
        simp [set_waitqueue, set_status, store, hp]
      · intro j hj
        simp [set_waitqueue, set_status, store, hj]
  exact ⟨key, key⟩

/-- Witness of C1: process `1` is current in `demo_owned`, where resource `0` is owned and
resource `1` is free. -/
theorem acquire_contract_witness :
    demo_owned.current = some 1 ∧
    (AcquireContract fcfs_acquire demo_owned 0 1 ∧ AcquireContract prio_acquire demo_owned 0 1) ∧
    (AcquireContract fcfs_acquire demo_owned 1 1 ∧ AcquireContract prio_acquire demo_owned 1 1) :=
  ⟨rfl, acquire_contract demo_owned 0 1 rfl, acquire_contract demo_owned 1 1 rfl⟩

/-- C2: at every state in which resource `resource_id` is owned by the current process `c`:
when its wait queue is `w :: ws` and all waiters are BLOCKED, `fcfs_release` returns, the
resource has no owner, the head `w` is READY and is the last element of the ready queue, the
wait queue is `ws`, every other process is untouched, so the other waiters are still BLOCKED;
when the wait queue is empty, only the owner is cleared. -/
theorem fcfs_release_wakes_head (s : State) (resource_id c : Nat)
    (hc : s.current = some c) (ho : (s.resources resource_id).owner = some c) :
    (∀ w ws, (s.resources resource_id).waitqueue = w :: ws →
      (∀ p ∈ w :: ws, (s.procs p).status = PROCESS_BLOCKED) →
      ∃ s', fcfs_release s resource_id = .ok s' ∧
        (s'.resources resource_id).owner = none ∧
        s'.procs w = { s.procs w with status := PROCESS_READY } ∧
        s'.readyqueue = s.readyqueue ++ [w] ∧
        s'.readyqueue.getLast? = some w ∧
        (s'.resources resource_id).waitqueue = ws ∧
        (∀ p, p ≠ w → s'.procs p = s.procs p) ∧
        (∀ p ∈ ws, p ≠ w → (s'.procs p).status = PROCESS_BLOCKED) ∧
        ((w :: ws).Nodup → ∀ p ∈ ws, (s'.procs p).status = PROCESS_BLOCKED) ∧
        (∀ j, j ≠ resource_id → s'.resources j = s.resources j) ∧
        s'.current = s.current) ∧
    ((s.resources resource_id).waitqueue = [] →
      ∃ s', fcfs_release s resource_id = .ok s' ∧
        s'.resources resource_id = { owner := none, waitqueue := [] } ∧
        (∀ j, j ≠ resource_id → s'.resources j = s.resources j) ∧
        s'.procs = s.procs ∧ s'.readyqueue = s.readyqueue ∧ s'.current = s.current) := by
  have hoc : (s.resources resource_id).owner = s.current := by rw [ho, hc]
  constructor
  · intro w ws hq hb
    have hw : (s.procs w).status = PROCESS_BLOCKED := hb w (List.mem_cons_self w ws)
    have hothers : ∀ p ∈ ws, p ≠ w →
        (store s.procs w { s.procs w with status := PROCESS_READY } p).status
          = PROCESS_BLOCKED := by
      intro p hp hne
      rw [store_other _ _ _ _ hne]
      exact hb p (List.mem_cons_of_mem w hp)
    have hrun : fcfs_release s resource_id = .ok
        { set_status (set_waitqueue (set_owner s resource_id none) resource_id ws) w
            PROCESS_READY with readyqueue := s.readyqueue ++ [w] } := by
      simp [fcfs_release, hoc, set_owner, list_first_entry, hq, hw, set_status, set_waitqueue,
        list_del_init, list_add_tail]
    refine ⟨_, hrun, ?_, ?_, ?_, ?_, ?_, ?_, ?_, ?_, ?_, ?_⟩
    · simp [set_status, set_waitqueue, set_owner]
    · simp [set_status, set_waitqueue, set_owner]
    · simp [set_status, set_waitqueue, set_owner]
    · simp [set_status, set_waitqueue, set_owner]
    · simp [set_status, set_waitqueue, set_owner]
    · intro p hp
      simp [set_status, set_waitqueue, set_owner, store, hp]
    · simpa [set_status, set_waitqueue, set_owner] using hothers
    · intro hnd p hp
      have hne : p ≠ w := by
        rintro rfl
        exact (List.nodup_cons.mp hnd).1 hp
      simpa [set_status, set_waitqueue, set_owner] using hothers p hp hne
    · intro j hj
      simp [set_status, set_waitqueue, set_owner, store, hj]
    · simp [set_status, set_waitqueue, set_owner]
  · intro hq
    have hrun : fcfs_release s resource_id = .ok (set_owner s resource_id none) := by
      simp [fcfs_release, hoc, set_owner, list_first_entry, hq]
    refine ⟨_, hrun, ?_, ?_, rfl, rfl, rfl⟩
    · simp [set_owner, hq]
    · intro j hj
      simp [set_owner, store, hj]

/-- Witness of C2: in `demo_owned` process `1` releases resource `0`, on which the BLOCKED
processes `2` and `3` wait. -/
theorem fcfs_release_wakes_head_witness :
    ∃ s', fcfs_release demo_owned 0 = .ok s' ∧
      (s'.resources 0).owner = none ∧ (s'.procs 2).status = PROCESS_READY ∧
      s'.readyqueue = [4, 2] ∧ (s'.resources 0).waitqueue = [3] ∧
      (s'.procs 3).status = PROCESS_BLOCKED := by
  obtain ⟨s', h, h1, h2, h3, _, h5, _, _, h8, _⟩ :=
    (fcfs_release_wakes_head demo_owned 0 1 rfl rfl).1 2 [3] rfl (by decide)
  exact ⟨s', h, h1, by rw [h2], h3, h5, h8 (by decide) 3 (by decide)⟩

/-- C3: at every state in which resource `resource_id` is owned by the current process `c`
and its wait queue `h :: t` holds only BLOCKED processes, `prio_release` returns and wakes the
waiter `w` with `h :: t = pre ++ w :: post`, every waiter before `w` having a strictly smaller
priority and every waiter after `w` a priority at most that of `w`.  `w` leaves the wait
queue, which becomes `pre ++ post`, is set READY and appended at the ready-queue tail; the
resource has no owner; every other process is untouched, so the other waiters stay BLOCKED. -/
theorem prio_release_wakes_highest (s : State) (resource_id c h : Nat) (t : List Nat)
    (hc : s.current = some c) (ho : (s.resources resource_id).owner = some c)
    (hq : (s.resources resource_id).waitqueue = h :: t)
    (hb : ∀ p ∈ h :: t, (s.procs p).status = PROCESS_BLOCKED) :
    ∃ s' pre w post, prio_release s resource_id = .ok s' ∧
      h :: t = pre ++ w :: post ∧
      (∀ p ∈ pre, (s.procs p).prio < (s.procs w).prio) ∧
      (∀ p ∈ post, (s.procs p).prio ≤ (s.procs w).prio) ∧
      (s'.resources resource_id).waitqueue = pre ++ post ∧
      s'.procs w = { s.procs w with status := PROCESS_READY } ∧
      s'.readyqueue = s.readyqueue ++ [w] ∧
      (s'.resources resource_id).owner = none ∧
      (∀ p, p ≠ w → s'.procs p = s.procs p) ∧
      (∀ p ∈ pre ++ post, p ≠ w → (s'.procs p).status = PROCESS_BLOCKED) ∧
      ((h :: t).Nodup → ∀ p ∈ pre ++ post, (s'.procs p).status = PROCESS_BLOCKED) ∧
      (∀ j, j ≠ resource_id → s'.resources j = s.resources j) ∧
      s'.current = s.current := by
  have hoc : (s.resources resource_id).owner = s.current := by rw [ho, hc]
  obtain ⟨pre, post, hsplit, hpre, hpost⟩ := prio_scan_first s.procs h t
  generalize hwdef : prio_scan s.procs (h :: t) h = w at hsplit hpre hpost
  have hwmem : w ∈ h :: t := by rw [hsplit]; simp
  have hw : (s.procs w).status = PROCESS_BLOCKED := hb w hwmem
  have hnotin : w ∉ pre := fun hin => Nat.lt_irrefl _ (hpre w hin)
  have hdel : list_del_init w (h :: t) = pre ++ post := by
    rw [hsplit]; exact list_del_init_split w pre post hnotin
  have hothers : ∀ p ∈ pre ++ post, p ≠ w →
      (store s.procs w { s.procs w with status := PROCESS_READY } p).status
        = PROCESS_BLOCKED := by
    intro p hp hne
    rw [store_other _ _ _ _ hne]
    apply hb p
    rw [hsplit]
    rcases List.mem_append.mp hp with hp | hp
    · exact List.mem_append_left _ hp
    · exact List.mem_append_right _ (List.mem_cons_of_mem _ hp)
  have hrun : prio_release s resource_id = .ok
      { set_status (set_waitqueue (set_owner s resource_id none) resource_id (pre ++ post)) w
          PROCESS_READY with readyqueue := s.readyqueue ++ [w] } := by
    simp [prio_release, hoc, set_owner, list_first_entry, hq, hwdef, hw, set_status,
      set_waitqueue, hdel, list_add_tail]
  refine ⟨_, pre, w, post, hrun, hsplit, hpre, hpost, ?_, ?_, ?_, ?_, ?_, ?_, ?_, ?_, ?_⟩
  · simp [set_status, set_waitqueue, set_owner]
  · simp [set_status, set_waitqueue, set_owner]
  · simp [set_status, set_waitqueue, set_owner]
  · simp [set_status, set_waitqueue, set_owner]
  · intro p hp
    simp [set_status, set_waitqueue, set_owner, store, hp]
  · simpa [set_status, set_waitqueue, set_owner] using hothers
  · intro hnd p hp
    have hne : p ≠ w := by
      rintro rfl
      rw [hsplit] at hnd
      have h1 := List.nodup_append.mp hnd
      rcases List.mem_append.mp hp with hp | hp
      · exact hnotin hp
      · exact (List.nodup_cons.mp h1.2.1).1 hp
    simpa [set_status, set_waitqueue, set_owner] using hothers p hp hne
  · intro j hj
    simp [set_status, set_waitqueue, set_owner, store, hj]
  · simp [set_status, set_waitqueue, set_owner]

/-- Witness of C3: in `demo_owned` process `1` releases resource `0`, on which `2` (priority
1) and `3` (priority 7) wait: `3` is woken, `2` keeps waiting. -/
theorem prio_release_wakes_highest_witness :
    ∃ s', prio_release demo_owned 0 = .ok s' ∧
      s'.readyqueue = [4, 3] ∧ (s'.resources 0).waitqueue = [2] ∧
      (s'.procs 3).status = PROCESS_READY ∧ (s'.procs 2).status = PROCESS_BLOCKED ∧
      (s'.resources 0).owner = none := by
  obtain ⟨s', pre, w, post, hrun, hsplit, hpre, hpost, hwq, hw, hrq, hown, _, _, hrest, _⟩ :=
    prio_release_wakes_highest demo_owned 0 1 2 [3] rfl rfl rfl (by decide)
  have hw3 : pre = [2] ∧ w = 3 ∧ post = [] := by
    rcases pre with _ | ⟨a, _ | ⟨b, pre⟩⟩
    · simp only [List.nil_append, List.cons.injEq] at hsplit
      obtain ⟨rfl, rfl⟩ := hsplit
      exact absurd (hpost 3 (by simp)) (by decide)
    · simp only [List.cons_append, List.nil_append, List.cons.injEq] at hsplit
      obtain ⟨rfl, rfl, hp⟩ := hsplit
      exact ⟨rfl, rfl, hp.symm⟩
    · simp at hsplit
  obtain ⟨rfl, rfl, rfl⟩ := hw3
  refine ⟨s', hrun, hrq, hwq, by rw [hw], hrest (by decide) 2 (by simp), hown⟩

/-- The earliest entry of the greatest priority of a queue is unique. -/
theorem first_max_unique (procs : Nat → process) (pre post pre' post' : List Nat) (w w' : Nat)
    (h : pre ++ w :: post = pre' ++ w' :: post')
    (hpre : ∀ p ∈ pre, (procs p).prio < (procs w).prio)
    (hpost : ∀ p ∈ post, (procs p).prio ≤ (procs w).prio)
    (hpre' : ∀ p ∈ pre', (procs p).prio < (procs w').prio)
    (hpost' : ∀ p ∈ post', (procs p).prio ≤ (procs w').prio) : w = w' := by
  rcases List.append_eq_append_iff.mp h with ⟨a, ha, hb⟩ | ⟨a, ha, hb⟩
  · cases a with
    | nil => simpa using (List.cons.inj hb).1
    | cons x a =>
      have hx : w = x := (List.cons.inj hb).1
      have hpo : post = a ++ w' :: post' := (List.cons.inj hb).2
      subst hx
      have h1 := hpre' w (by rw [ha]; simp)
      have h2 := hpost w' (by rw [hpo]; simp)
      omega
  · cases a with
    | nil => simpa using ((List.cons.inj hb).1).symm
    | cons x a =>
      have hx : w' = x := (List.cons.inj hb).1
      have hpo : post' = a ++ w :: post := (List.cons.inj hb).2
      subst hx
      have h1 := hpre w' (by rw [ha]; simp)
      have h2 := hpost' w (by rw [hpo]; simp)
      omega

/-- The waiter `prio_release` picks on a non-empty wait queue is the selected one. -/
theorem prio_scan_selected (s : State) (resource_id h : Nat) (t : List Nat)
    (hq : (s.resources resource_id).waitqueue = h :: t) (w : Nat) :
    PrioSelected s resource_id w ↔ w = prio_scan s.procs (h :: t) h := by
  obtain ⟨pre, post, hsplit, hpre, hpost⟩ := prio_scan_first s.procs h t
  constructor
  · rintro ⟨pre', post', hsplit', hpre', hpost'⟩
    rw [hq, hsplit] at hsplit'
    exact (first_max_unique s.procs _ _ _ _ _ _ hsplit' hpre hpost hpre' hpost').symm
  · rintro rfl
    exact ⟨pre, post, by rw [hq]; exact hsplit, hpre, hpost⟩

/-- C4: for `fcfs_release` and `prio_release`, at every state and resource id: release fails
its assertion whenever the owner of the resource is not `current` (in particular when a
current process exists and the resource has no owner), and also when the waiter it selects is
not BLOCKED; it returns exactly when the owner is `current` and the selected waiter, if any,
is BLOCKED. -/
theorem release_aborts_on_misuse (s : State) (resource_id : Nat) :
    ReleaseContract fcfs_release FcfsSelected s resource_id ∧
    ReleaseContract prio_release PrioSelected s resource_id := by
  constructor
  · have hbad : (s.resources resource_id).owner ≠ s.current →
        fcfs_release s resource_id = .error Fault.assertion_failed := by
      intro h; simp [fcfs_release, h]
    refine ⟨hbad, ?_, ?_, ?_⟩
    · intro c hc ho
      exact hbad (by rw [hc, ho]; simp)
    · rintro w ⟨ws, hq⟩ hw
      by_cases hoc : (s.resources resource_id).owner = s.current
      · simp [fcfs_release, hoc, set_owner, list_first_entry, hq, hw]
      · exact hbad hoc
    · constructor
      · rintro ⟨s', hs'⟩
        by_cases hoc : (s.resources resource_id).owner = s.current
        · refine ⟨hoc, ?_⟩
          rintro w ⟨ws, hq⟩
          by_contra hw
          simp [fcfs_release, hoc, set_owner, list_first_entry, hq, hw] at hs'
        · rw [hbad hoc] at hs'; cases hs'
      · rintro ⟨hoc, hsel⟩
        cases hq : (s.resources resource_id).waitqueue with
        | nil => exact ⟨_, by simp [fcfs_release, hoc, set_owner, list_first_entry, hq]; rfl⟩
        | cons w ws =>
          have hw := hsel w ⟨ws, hq⟩
          exact ⟨_, by simp [fcfs_release, hoc, set_owner, list_first_entry, hq, hw]; rfl⟩
  · have hbad : (s.resources resource_id).owner ≠ s.current →
        prio_release s resource_id = .error Fault.assertion_failed := by
      intro h; simp [prio_release, h]
    refine ⟨hbad, ?_, ?_, ?_⟩
    · intro c hc ho
      exact hbad (by rw [hc, ho]; simp)
    · rintro w hsel hw
      obtain ⟨pre, post, hq, -, -⟩ := id hsel
      by_cases hoc : (s.resources resource_id).owner = s.current
      · cases hq' : (s.resources resource_id).waitqueue with
        | nil => rw [hq'] at hq; simp at hq
        | cons h t =>
          have hweq := (prio_scan_selected s resource_id h t hq' w).mp hsel
          rw [hweq] at hw
          simp [prio_release, hoc, set_owner, list_first_entry, hq', hw]
      · exact hbad hoc
    · constructor
      · rintro ⟨s', hs'⟩
        by_cases hoc : (s.resources resource_id).owner = s.current
        · refine ⟨hoc, ?_⟩
          intro w hsel
          obtain ⟨pre, post, hq, -, -⟩ := id hsel
          cases hq' : (s.resources resource_id).waitqueue with
          | nil => rw [hq'] at hq; simp at hq
          | cons h t =>
            have hweq := (prio_scan_selected s resource_id h t hq' w).mp hsel
            by_contra hw
            rw [hweq] at hw
            simp [prio_release, hoc, set_owner, list_first_entry, hq', hw] at hs'
        · rw [hbad hoc] at hs'; cases hs'
      · rintro ⟨hoc, hsel⟩
        cases hq : (s.resources resource_id).waitqueue with
        | nil => exact ⟨_, by simp [prio_release, hoc, set_owner, list_first_entry, hq]; rfl⟩
        | cons h t =>
          have hw := hsel _ ((prio_scan_selected s resource_id h t hq _).mpr rfl)
          exact ⟨_, by simp [prio_release, hoc, set_owner, list_first_entry, hq, hw]; rfl⟩

/-- Witness of C4: in `demo_foreign` the current process `1` owns neither resource `0` (owned
by `5`) nor resource `1` (free), and both release functions fail their assertion on both. -/
theorem release_aborts_on_misuse_witness :
    fcfs_release demo_foreign 0 = .error Fault.assertion_failed ∧
    prio_release demo_foreign 0 = .error Fault.assertion_failed ∧
    fcfs_release demo_foreign 1 = .error Fault.assertion_failed ∧
    prio_release demo_foreign 1 = .error Fault.assertion_failed :=
  ⟨(release_aborts_on_misuse demo_foreign 0).1.1 (by decide),
   (release_aborts_on_misuse demo_foreign 0).2.1 (by decide),
   (release_aborts_on_misuse demo_foreign 1).1.2.1 1 rfl rfl,
   (release_aborts_on_misuse demo_foreign 1).2.2.1 1 rfl rfl⟩

/-- The comparison `r->owner == current` is a comparison of pointers: with no current process
and no owner both are `NULL`, the assertion holds and release returns (here on an empty wait
queue, for both release functions). -/
theorem release_without_caller (s : State) (resource_id : Nat) (hc : s.current = none)
    (ho : (s.resources resource_id).owner = none)
    (hq : (s.resources resource_id).waitqueue = []) :
    fcfs_release s resource_id = .ok (set_owner s resource_id none) ∧
    prio_release s resource_id = .ok (set_owner s resource_id none) := by
  have hoc : (s.resources resource_id).owner = s.current := by rw [ho, hc]
  constructor
  · simp [fcfs_release, hoc, set_owner, list_first_entry, hq]
  · simp [prio_release, hoc, set_owner, list_first_entry, hq]

/-! ### Scheduling decisions -/

/-- C5: at every state, if the current process is present, not BLOCKED and has
`age < lifespan`, `fifo_schedule` returns it and changes nothing; otherwise, if the ready queue
is `h :: t`, it returns `h` and the ready queue becomes `t`; otherwise it returns none and
changes nothing. -/
theorem fifo_decision (s : State) :
    (∀ c, s.current = some c → (s.procs c).status ≠ PROCESS_BLOCKED →
      (s.procs c).age < (s.procs c).lifespan → fifo_schedule s = .ok (some c, s)) ∧
    (¬ current_runnable s →
      (∀ h t, s.readyqueue = h :: t →
        fifo_schedule s = .ok (some h, { s with readyqueue := t })) ∧
      (s.readyqueue = [] → fifo_schedule s = .ok (none, s))) := by
  constructor
  · intro c hc hst hage
    simp [fifo_schedule, hc, hst, hage]
  · intro hnr
    have hpick : fifo_schedule s = fifo_pick_next s := by
      unfold fifo_schedule
      cases hc : s.current with
      | none => rfl
      | some c =>
        simp only [current_runnable, hc, not_and] at hnr
        by_cases hst : (s.procs c).status = PROCESS_BLOCKED
        · simp [hst]
        · simp [hst, hnr hst]
    rw [hpick]
    constructor
    · intro h t hq
      simp [fifo_pick_next, list_first_entry, hq, list_del_init]
    · intro hq
      simp [fifo_pick_next, list_first_entry, hq]

/-- Witness of C5: with job `1` running unfinished it is kept; with no current process the
head `1` of `[1, 2, 3]` is returned although `2` is shorter; with the finished job `2` still
current the head `1` of `[1, 3]` is returned. -/
theorem fifo_decision_witness :
    fifo_schedule one_running = .ok (some 1, one_running) ∧
    fifo_schedule all_ready = .ok (some 1, { all_ready with readyqueue := [2, 3] }) ∧
    fifo_schedule one_finished = .ok (some 1, { one_finished with readyqueue := [3] }) :=
  ⟨(fifo_decision one_running).1 1 rfl (by decide) (by decide),
   ((fifo_decision all_ready).2 (by simp [current_runnable, all_ready])).1 1 [2, 3] rfl,
   ((fifo_decision one_finished).2
      (by simp [current_runnable, one_finished, store, mkproc])).1 1 [3] rfl⟩

/-- C7: at every state in which the current process is present, not BLOCKED and has
`age < lifespan`, `sjf_schedule` returns it and changes nothing, whatever the ready queue
holds. -/
theorem sjf_non_preemptive (s : State) (c : Nat) (hc : s.current = some c)
    (hst : (s.procs c).status ≠ PROCESS_BLOCKED)
    (hage : (s.procs c).age < (s.procs c).lifespan) :
    sjf_schedule s = .ok (some c, s) := by
  simp [sjf_schedule, hc, hst, hage]

/-- Witness of C7: job `1` (lifespan 5, age 1) keeps the CPU although job `2` of lifespan 2
is ready. -/
theorem sjf_non_preemptive_witness :
    (one_running.procs 2).lifespan < (one_running.procs 1).lifespan ∧
    2 ∈ one_running.readyqueue ∧
    sjf_schedule one_running = .ok (some 1, one_running) :=
  ⟨by decide, by decide, sjf_non_preemptive one_running 1 rfl (by decide) (by decide)⟩

/-- C10: at every state, if the ready queue is empty and the current process is present, not
BLOCKED and unfinished, `rr_schedule` returns it and changes nothing; if the ready queue is
`h :: t`, it returns `h` and the ready queue becomes `t` followed by `current` when `current`
exists and has `age < lifespan`, and by nothing otherwise. -/
theorem rr_decision (s : State) :
    (s.readyqueue = [] → ∀ c, s.current = some c → (s.procs c).status ≠ PROCESS_BLOCKED →
      (s.procs c).age < (s.procs c).lifespan → rr_schedule s = .ok (some c, s)) ∧
    (∀ h t, s.readyqueue = h :: t →
      rr_schedule s = .ok (some h, { s with readyqueue := t ++ requeued s })) := by
  constructor
  · intro hq c hc hst hage
    simp [rr_schedule, hc, hst, hage, hq, list_empty]
  · intro h t hq
    have hpick : rr_schedule s = rr_pick_next s := by
      unfold rr_schedule
      cases hc : s.current with
      | none => rfl
      | some c =>
        by_cases hst : (s.procs c).status = PROCESS_BLOCKED
        · simp [hst]
        · simp [hst, hq, list_empty]
    rw [hpick]
    unfold rr_pick_next requeued
    cases hc : s.current with
    | none => simp [list_first_entry, hq, list_del_init]
    | some c =>
      by_cases hage : (s.procs c).age < (s.procs c).lifespan
      · simp [list_first_entry, hq, list_del_init, hage, list_add_tail]
      · simp [list_first_entry, hq, list_del_init, hage]

/-- Witness of C10: job `1` running unfinished with `[2]` ready is rotated behind `2`; the
finished job `2` is not re-queued. -/
theorem rr_decision_witness :
    rr_schedule one_running = .ok (some 2, { one_running with readyqueue := [1] }) ∧
    rr_schedule one_finished = .ok (some 1, { one_finished with readyqueue := [3] }) :=
  ⟨(rr_decision one_running).2 2 [] rfl, (rr_decision one_finished).2 1 [3] rfl⟩

/-! ### Shortest-job scans -/

/-- The loop of `sjf_schedule` is a minimum scan on `lifespan`. -/
theorem sjf_scan_eq (procs : Nat → process) (q : List Nat) (init : Option Nat × Nat) :
    sjf_scan procs q init = min_scan (fun p => (procs p).lifespan) q init := rfl

/-- The loop of `stcf_schedule` is a minimum scan on `pos_tc`. -/
theorem stcf_scan_eq (procs : Nat → process) (q : List Nat) (init : Option Nat × Nat) :
    stcf_scan procs q init = min_scan (pos_tc procs) q init := rfl

/-- The minimum scan started from `acc`: either no key in the queue is below the bound of
`acc`, which is then returned, or the result is the first entry of the smallest key, and that
key is below the bound. -/
theorem min_scan_spec (key : Nat → Nat) (q : List Nat) :
    ∀ acc : Option Nat × Nat,
      (min_scan key q acc = acc ∧ ∀ p ∈ q, acc.2 ≤ key p) ∨
      (∃ pre w post, q = pre ++ w :: post ∧ min_scan key q acc = (some w, key w) ∧
        key w < acc.2 ∧ (∀ p ∈ pre, key w < key p) ∧ (∀ p ∈ post, key w ≤ key p)) := by
  induction q with
  | nil => intro acc; left; simp [min_scan]
  | cons x xs ih =>
    intro acc
    by_cases hx : key x < acc.2
    · have hstep : min_scan key (x :: xs) acc = min_scan key xs (some x, key x) := by
        simp [min_scan, hx]
      rw [hstep]
      rcases ih (some x, key x) with ⟨heq, hall⟩ | ⟨pre, w, post, hsplit, hres, hlt, hpre, hpost⟩
      · right
        exact ⟨[], x, xs, rfl, heq, hx, by simp, hall⟩
      · right
        refine ⟨x :: pre, w, post, by rw [hsplit]; rfl, hres, ?_, ?_, hpost⟩
        · simp only at hlt; omega
        · intro p hp
          rcases List.mem_cons.mp hp with rfl | hp
          · exact hlt
          · exact hpre p hp
    · have hstep : min_scan key (x :: xs) acc = min_scan key xs acc := by
        simp [min_scan, hx]
      rw [hstep]
      rcases ih acc with ⟨heq, hall⟩ | ⟨pre, w, post, hsplit, hres, hlt, hpre, hpost⟩
      · left
        refine ⟨heq, ?_⟩
        intro p hp
        rcases List.mem_cons.mp hp with rfl | hp
        · omega
        · exact hall p hp
      · right
        refine ⟨x :: pre, w, post, by rw [hsplit]; rfl, hres, hlt, ?_, hpost⟩
        intro p hp
        rcases List.mem_cons.mp hp with rfl | hp
        · omega
        · exact hpre p hp

/-- Unsigned subtraction is exact when it does not wrap. -/
theorem usub_exact (a b : Nat) (hab : b ≤ a) (ha : a < 4294967296) : usub a b = a - b := by
  unfold usub
  omega

/-- A process that is not runnable as `current` sends `sjf_schedule` to `pick_next`. -/
theorem sjf_schedule_pick_next (s : State) (hnr : ¬ current_runnable s) :
    sjf_schedule s = sjf_pick_next s := by
  unfold sjf_schedule
  cases hc : s.current with
  | none => rfl
  | some c =>
    simp only [current_runnable, hc, not_and] at hnr
    by_cases hst : (s.procs c).status = PROCESS_BLOCKED
    · simp [hst]
    · simp [hst, hnr hst]

/-- SJF reselection below the sentinel: when the current process is absent, BLOCKED or
finished and some ready process has a lifespan below `1000000000`, `sjf_schedule` returns the
earliest ready process of the smallest lifespan and removes exactly it from the ready
queue. -/
theorem sjf_reselects_shortest (s : State) (hnr : ¬ current_runnable s)
    (hex : ∃ p ∈ s.readyqueue, (s.procs p).lifespan < 1000000000) :
    ∃ pre w post, s.readyqueue = pre ++ w :: post ∧
      (∀ p ∈ pre, (s.procs w).lifespan < (s.procs p).lifespan) ∧
      (∀ p ∈ post, (s.procs w).lifespan ≤ (s.procs p).lifespan) ∧
      sjf_schedule s = .ok (some w, { s with readyqueue := pre ++ post }) := by
  rw [sjf_schedule_pick_next s hnr]
  obtain ⟨p0, hp0, hlt0⟩ := hex
  have hne : list_empty s.readyqueue = false := by
    cases hq : s.readyqueue with
    | nil => rw [hq] at hp0; simp at hp0
    | cons a l => simp [list_empty]
  rcases min_scan_spec (fun p => (s.procs p).lifespan) s.readyqueue (none, 1000000000) with
    ⟨-, hall⟩ | ⟨pre, w, post, hsplit, hres, -, hpre, hpost⟩
  · have := hall p0 hp0
    simp only at this
    omega
  · refine ⟨pre, w, post, hsplit, hpre, hpost, ?_⟩
    have hnotin : w ∉ pre := fun hin => Nat.lt_irrefl _ (hpre w hin)
    have hdel : list_del_init w s.readyqueue = pre ++ post := by
      rw [hsplit]; exact list_del_init_split w pre post hnotin
    simp [sjf_pick_next, hne, sjf_scan_eq, hres, hdel]

/-- The spec's SJF example: with no current process and the ready queue `1` (lifespan 5),
`2` (lifespan 2), `3` (lifespan 8), `sjf_schedule` returns `2` and leaves `[1, 3]`. -/
theorem sjf_example : sjf_schedule all_ready =
    .ok (some 2, { all_ready with readyqueue := [1, 3] }) := by
  rfl

/-- C6: the claim fails on the code at this input.  With no current process and one ready
process of lifespan `1000000000`, the scan of `sjf_schedule` never sets `next` (its bound
starts at `1e9`) and `list_del_init(&next->list)` dereferences `NULL`: nothing is returned. -/
theorem sjf_schedule_sentinel_fault :
    ¬ current_runnable sjf_sentinel_state ∧ sjf_sentinel_state.readyqueue = [1] ∧
    sjf_schedule sjf_sentinel_state = .error Fault.null_dereference := by
  refine ⟨by simp [current_runnable, sjf_sentinel_state], rfl, ?_⟩
  rfl

/-- With a non-empty ready queue `stcf_schedule` runs its scan from `stcf_bound`. -/
theorem stcf_schedule_pick_next (s : State) (hty : unsigned_fields s)
    (hne : list_empty s.readyqueue = false) :
    stcf_schedule s = stcf_pick_next s (stcf_bound s) := by
  unfold stcf_schedule stcf_bound
  cases hc : s.current with
  | none => rfl
  | some c =>
    by_cases hst : (s.procs c).status = PROCESS_BLOCKED
    · simp [hst]
    · by_cases hage : (s.procs c).age < (s.procs c).lifespan
      · have hex := usub_exact _ _ (Nat.le_of_lt hage) (hty c).2
        simp [hst, hne, hage, Nat.not_le.mpr hage, hex, remaining]
      · simp [hst, hne, hage, Nat.not_lt.mp hage]

/-- STCF selection below the sentinel: when every ready process has `age ≤ lifespan` and
some ready process has a remaining time below `stcf_bound`, `stcf_schedule` returns the
earliest ready process of the smallest remaining time, removes it from the ready queue and
appends `current` at the tail when `current` exists and is unfinished. -/
theorem stcf_selects_shortest_remaining (s : State) (hty : unsigned_fields s)
    (hq : ∀ p ∈ s.readyqueue, (s.procs p).age ≤ (s.procs p).lifespan)
    (hex : ∃ p ∈ s.readyqueue, remaining (s.procs p) < stcf_bound s) :
    ∃ pre w post, s.readyqueue = pre ++ w :: post ∧
      (∀ p ∈ pre, remaining (s.procs w) < remaining (s.procs p)) ∧
      (∀ p ∈ post, remaining (s.procs w) ≤ remaining (s.procs p)) ∧
      stcf_schedule s = .ok (some w, { s with readyqueue := pre ++ post ++ requeued s }) := by
  obtain ⟨p0, hp0, hlt0⟩ := hex
  have hne : list_empty s.readyqueue = false := by
    cases hq' : s.readyqueue with
    | nil => rw [hq'] at hp0; simp at hp0
    | cons a l => simp [list_empty]
  have hkey : ∀ p ∈ s.readyqueue, pos_tc s.procs p = remaining (s.procs p) := by
    intro p hp
    exact usub_exact _ _ (hq p hp) (hty p).2
  rw [stcf_schedule_pick_next s hty hne]
  rcases min_scan_spec (pos_tc s.procs) s.readyqueue (none, stcf_bound s) with
    ⟨-, hall⟩ | ⟨pre, w, post, hsplit, hres, -, hpre, hpost⟩
  · have := hall p0 hp0
    rw [hkey p0 hp0] at this
    simp only at this
    omega
  · have hmem : ∀ p ∈ pre ++ w :: post, p ∈ s.readyqueue := by
      intro p hp; rw [hsplit]; exact hp
    have hw := hkey w (hmem w (by simp))
    refine ⟨pre, w, post, hsplit, ?_, ?_, ?_⟩
    · intro p hp
      have := hpre p hp
      rw [hw, hkey p (hmem p (by simp [hp]))] at this
      exact this
    · intro p hp
      have := hpost p hp
      rw [hw, hkey p (hmem p (by simp [hp]))] at this
      exact this
    · have hnotin : w ∉ pre := fun hin => Nat.lt_irrefl _ (hpre w hin)
      have hdel : ∀ l, list_del_init w (s.readyqueue ++ l) = pre ++ post ++ l := by
        intro l
        rw [hsplit, List.append_assoc, List.cons_append, list_del_init_split w pre _ hnotin,
          List.append_assoc]
      have hdel0 : list_del_init w s.readyqueue = pre ++ post := by
        simpa using hdel []
      unfold stcf_pick_next requeued
      rw [stcf_scan_eq, hres]
      cases hc : s.current with
      | none => simp [hne, hdel0]
      | some c =>
        by_cases hage : (s.procs c).age < (s.procs c).lifespan
        · simp [hne, hage, list_add_tail, hdel]
        · simp [hne, hage, hdel0]

/-- The spec's STCF example: job `1` (lifespan 5, age 1) is running and job `2` (lifespan 2)
is ready: `stcf_schedule` returns `2` and the ready queue becomes `[1]`. -/
theorem stcf_example : stcf_schedule one_running =
    .ok (some 2, { one_running with readyqueue := [1] }) := by
  rfl

/-- C8: the claim fails on the code at this input.  With no current process and one ready
process of lifespan `100000000` and age 0, the scan of `stcf_schedule` starts from
`cur_tc = MAX_TC = 1e8`, finds no strictly smaller remaining time and returns `current`, which
is none; the ready queue is left as it was. -/
theorem stcf_schedule_sentinel_idle :
    stcf_sentinel_state.current = none ∧ stcf_sentinel_state.readyqueue = [1] ∧
    remaining (stcf_sentinel_state.procs 1) = 100000000 ∧
    stcf_schedule stcf_sentinel_state = .ok (none, stcf_sentinel_state) := by
  refine ⟨rfl, rfl, by decide, ?_⟩
  rfl

/-- C9: at every state in which the current process `c` is present, not BLOCKED and
unfinished, and every ready process has a remaining time `lifespan - age` at least that of
`c` (in particular when the ready queue is empty), `stcf_schedule` returns `c` and changes
nothing; a tie in remaining time does not preempt. -/
theorem stcf_keeps_current (s : State) (c : Nat) (hty : unsigned_fields s)
    (hc : s.current = some c) (hst : (s.procs c).status ≠ PROCESS_BLOCKED)
    (hage : (s.procs c).age < (s.procs c).lifespan)
    (hall : ∀ p ∈ s.readyqueue, remaining (s.procs c) ≤ remaining (s.procs p)) :
    stcf_schedule s = .ok (some c, s) := by
  cases hq : s.readyqueue with
  | nil => simp [stcf_schedule, hc, hst, hq, list_empty, hage]
  | cons a l =>
    have hne : list_empty s.readyqueue = false := by simp [hq, list_empty]
    have hbound : stcf_bound s = remaining (s.procs c) := by
      simp [stcf_bound, hc, hst, hage]
    have hpos : 0 < remaining (s.procs c) := by unfold remaining; omega
    have hkey : ∀ p ∈ s.readyqueue, pos_tc s.procs p = remaining (s.procs p) := by
      intro p hp
      have h1 := hall p hp
      have h2 : (s.procs p).age ≤ (s.procs p).lifespan := by
        unfold remaining at h1 hpos; omega
      exact usub_exact _ _ h2 (hty p).2
    rw [stcf_schedule_pick_next s hty hne, hbound]
    rcases min_scan_spec (pos_tc s.procs) s.readyqueue (none, remaining (s.procs c)) with
      ⟨hres, -⟩ | ⟨pre, w, post, hsplit, -, hlt, -, -⟩
    · unfold stcf_pick_next
      rw [stcf_scan_eq, hres]
      simp [hne, hc]
    · have hwmem : w ∈ s.readyqueue := by rw [hsplit]; simp
      have := hall w hwmem
      rw [hkey w hwmem] at hlt
      simp only at hlt
      omega

/-- Witness of C9: job `1` with remaining time 2 keeps the CPU against the ready job `2` of
remaining time 2 (a tie) and job `3` of remaining time 8. -/
theorem stcf_keeps_current_witness :
    remaining (tie_running.procs 2) = remaining (tie_running.procs 1) ∧
    stcf_schedule tie_running = .ok (some 1, tie_running) :=
  ⟨by decide, stcf_keeps_current tie_running 1
    (by intro p; simp only [tie_running, store, jobs, mkproc]; split_ifs <;> decide)
    rfl (by decide) (by decide) (by decide)⟩

/-! ### Priority scheduling -/

/-- The priority scan over a whole queue returns one of its entries. -/
theorem prio_scan_mem (procs : Nat → process) (h : Nat) (t : List Nat) :
    prio_scan procs (h :: t) h ∈ h :: t := by
  obtain ⟨pre, post, hsplit, -, -⟩ := prio_scan_first procs h t
  generalize prio_scan procs (h :: t) h = w at hsplit
  rw [hsplit]; simp

/-- With a non-empty ready queue `prio_schedule` goes to its label `pick_next`. -/
theorem prio_schedule_pick_next (s : State) (h : Nat) (t : List Nat)
    (hq : s.readyqueue = h :: t) : prio_schedule s = prio_pick_next s := by
  unfold prio_schedule
  cases hc : s.current with
  | none => rfl
  | some c =>
    by_cases hst : (s.procs c).status = PROCESS_BLOCKED
    · simp [hst]
    · simp [hst, hq, list_empty]

/-- Priority selection: when the ready queue is non-empty and the current process is absent,
BLOCKED, finished or of a priority at most that of some ready process, `prio_schedule`
returns the earliest ready process of the greatest priority, removes it from the ready queue
and appends `current` at the tail exactly when it is present, not BLOCKED and unfinished. -/
theorem prio_schedule_selects (s : State) (h : Nat) (t : List Nat)
    (hq : s.readyqueue = h :: t)
    (hcur : ∀ c, s.current = some c → (s.procs c).status ≠ PROCESS_BLOCKED →
      (s.procs c).age < (s.procs c).lifespan →
      ∃ p ∈ s.readyqueue, (s.procs c).prio ≤ (s.procs p).prio) :
    ∃ pre w post, h :: t = pre ++ w :: post ∧
      (∀ p ∈ pre, (s.procs p).prio < (s.procs w).prio) ∧
      (∀ p ∈ post, (s.procs p).prio ≤ (s.procs w).prio) ∧
      prio_schedule s =
        .ok (some w, { s with readyqueue := pre ++ post ++ prio_requeued s }) := by
  obtain ⟨pre, post, hsplit, hpre, hpost⟩ := prio_scan_first s.procs h t
  generalize hwdef : prio_scan s.procs (h :: t) h = w at hsplit hpre hpost
  refine ⟨pre, w, post, hsplit, hpre, hpost, ?_⟩
  have hnotin : w ∉ pre := fun hin => Nat.lt_irrefl _ (hpre w hin)
  have hdel : ∀ l, list_del_init w ((h :: t) ++ l) = pre ++ post ++ l := by
    intro l
    rw [hsplit, List.append_assoc, List.cons_append, list_del_init_split w pre _ hnotin,
      List.append_assoc]
  have hdel0 : list_del_init w (h :: t) = pre ++ post := by simpa using hdel []
  have hmax : ∀ p ∈ h :: t, (s.procs p).prio ≤ (s.procs w).prio := by
    intro p hp
    rw [hsplit] at hp
    rcases List.mem_append.mp hp with hp | hp
    · exact Nat.le_of_lt (hpre p hp)
    · rcases List.mem_cons.mp hp with rfl | hp
      · exact Nat.le_refl _
      · exact hpost p hp
  rw [prio_schedule_pick_next s h t hq]
  unfold prio_pick_next prio_requeued
  simp only [list_first_entry, hq, List.head?_cons, hwdef]
  cases hc : s.current with
  | none => simp [hdel0]
  | some c =>
    by_cases hst : (s.procs c).status = PROCESS_BLOCKED
    · simp [hst, hdel0]
    · by_cases hage : (s.procs c).age < (s.procs c).lifespan
      · obtain ⟨p, hp, hle⟩ := hcur c hc hst hage
        rw [hq] at hp
        have hcw : (s.procs c).prio ≤ (s.procs w).prio := Nat.le_trans hle (hmax p hp)
        have h1 : ¬ (s.procs w).prio < (s.procs c).prio := by omega
        have h2 : (s.procs c).prio = (s.procs w).prio ∨ (s.procs c).prio < (s.procs w).prio := by
          omega
        have hdel1 := hdel [c]
        simp only [List.cons_append, List.append_assoc] at hdel1
        simp [hst, hage, h1, h2, list_add_tail, hdel1]
      · by_cases h2 : (s.procs c).prio = (s.procs w).prio ∨
            (s.procs c).prio < (s.procs w).prio
        · simp [hst, hage, h2, hdel0]
        · simp [hst, hage, h2, hdel0]

/-- C11: at every state in which the current process `c` is present, not BLOCKED and
unfinished, and the ready queue is empty or every ready process has a priority strictly
below that of `c`, `prio_schedule` returns `c` and changes nothing. -/
theorem prio_keeps_current (s : State) (c : Nat) (hc : s.current = some c)
    (hst : (s.procs c).status ≠ PROCESS_BLOCKED)
    (hage : (s.procs c).age < (s.procs c).lifespan)
    (hall : ∀ p ∈ s.readyqueue, (s.procs p).prio < (s.procs c).prio) :
    prio_schedule s = .ok (some c, s) := by
  cases hq : s.readyqueue with
  | nil => simp [prio_schedule, hc, hst, hq, list_empty, hage]
  | cons h t =>
    have hlt := hall _ (by rw [hq]; exact prio_scan_mem s.procs h t)
    rw [prio_schedule_pick_next s h t hq]
    unfold prio_pick_next
    simp [list_first_entry, hq, hc, hst, hlt, hage]

/-- Witness of C11: process `1` of priority 5 keeps the CPU against the ready process `3` of
priority 2. -/
theorem prio_keeps_current_witness : prio_schedule prio_top = .ok (some 1, prio_top) :=
  prio_keeps_current prio_top 1 rfl (by decide) (by decide) (by decide)

/-- C12: at every state in which the ready queue `h :: t` is non-empty and the current
process is absent, BLOCKED, finished or of a priority at most that of some ready process,
`prio_schedule` returns the earliest ready process `w` of the greatest priority and removes
it from the ready queue; `current` is appended at the tail exactly when it is present, not
BLOCKED and unfinished.  When `current` is runnable and ties with `w`, it is `w` and not
`current` that is returned, and at the next call, with `w` as the current process, the
returned process is not `w` again. -/
theorem prio_preempts_and_rotates (s : State) (h : Nat) (t : List Nat)
    (hq : s.readyqueue = h :: t)
    (hcur : ∀ c, s.current = some c → (s.procs c).status ≠ PROCESS_BLOCKED →
      (s.procs c).age < (s.procs c).lifespan →
      ∃ p ∈ s.readyqueue, (s.procs c).prio ≤ (s.procs p).prio) :
    ∃ pre w post, h :: t = pre ++ w :: post ∧
      (∀ p ∈ pre, (s.procs p).prio < (s.procs w).prio) ∧
      (∀ p ∈ post, (s.procs p).prio ≤ (s.procs w).prio) ∧
      prio_schedule s =
        .ok (some w, { s with readyqueue := pre ++ post ++ prio_requeued s }) ∧
      (∀ c, s.current = some c → (s.procs c).status ≠ PROCESS_BLOCKED →
        (s.procs c).age < (s.procs c).lifespan → (s.procs c).prio = (s.procs w).prio →
        c ∉ h :: t → (h :: t).Nodup →
        w ≠ c ∧ prio_requeued s = [c] ∧
        ∀ s2 : State, s2.current = some w → s2.readyqueue = pre ++ post ++ [c] →
          (∀ p, (s2.procs p).prio = (s.procs p).prio) →
          ∃ r s3, prio_schedule s2 = .ok (some r, s3) ∧ r ≠ w) := by
  obtain ⟨pre, w, post, hsplit, hpre, hpost, hrun⟩ := prio_schedule_selects s h t hq hcur
  refine ⟨pre, w, post, hsplit, hpre, hpost, hrun, ?_⟩
  intro c hc hst hage htie hnotin hnd
  have hwmem : w ∈ h :: t := by rw [hsplit]; simp
  have hwc : w ≠ c := by
    rintro rfl
    exact hnotin hwmem
  refine ⟨hwc, by simp [prio_requeued, hc, hst, hage], ?_⟩
  intro s2 hc2 hq2 hprio
  have hwnot : w ∉ pre ++ post ++ [c] := by
    rw [hsplit] at hnd
    have h1 := List.nodup_append.mp hnd
    have h2 := List.nodup_cons.mp h1.2.1
    intro hin
    rcases List.mem_append.mp hin with hin | hin
    · rcases List.mem_append.mp hin with hin | hin
      · exact h1.2.2 hin (List.mem_cons_self w post)
      · exact h2.1 hin
    · exact hwc (by simpa using hin)
  have hcmem : c ∈ s2.readyqueue := by rw [hq2]; simp
  cases hq2' : s2.readyqueue with
  | nil => rw [hq2'] at hcmem; simp at hcmem
  | cons h2 t2 =>
    have hcur2 : ∀ c', s2.current = some c' → (s2.procs c').status ≠ PROCESS_BLOCKED →
        (s2.procs c').age < (s2.procs c').lifespan →
        ∃ p ∈ s2.readyqueue, (s2.procs c').prio ≤ (s2.procs p).prio := by
      intro c' hc' _ _
      rw [hc2] at hc'
      obtain rfl := Option.some.inj hc'
      exact ⟨c, hcmem, by rw [hprio, hprio, htie]⟩
    obtain ⟨pre2, w2, post2, hsplit2, -, -, hrun2⟩ :=
      prio_schedule_selects s2 h2 t2 hq2' hcur2
    refine ⟨w2, _, hrun2, ?_⟩
    rintro rfl
    apply hwnot
    rw [← hq2, hq2', hsplit2]
    simp

/-- Witness of C12: process `1` (priority 5) is current and runnable, `3` (priority 2) and `2`
(priority 5) are ready: `2` is returned and the ready queue becomes `[3, 1]`. -/
theorem prio_preempts_and_rotates_witness :
    prio_schedule prio_tie = .ok (some 2, { prio_tie with readyqueue := [3, 1] }) := by
  obtain ⟨pre, w, post, hsplit, hpre, hpost, hrun, -⟩ :=
    prio_preempts_and_rotates prio_tie 3 [2] rfl
      (fun c _ _ _ => ⟨2, by decide, by
        have hc : c = 1 := by simp_all [prio_tie]
        subst hc; decide⟩)
  have hw : pre = [3] ∧ w = 2 ∧ post = [] := by
    rcases pre with _ | ⟨a, _ | ⟨b, pre⟩⟩
    · simp only [List.nil_append, List.cons.injEq] at hsplit
      obtain ⟨rfl, rfl⟩ := hsplit
      exact absurd (hpost 2 (by simp)) (by decide)
    · simp only [List.cons_append, List.nil_append, List.cons.injEq] at hsplit
      obtain ⟨rfl, rfl, hp⟩ := hsplit
      exact ⟨rfl, rfl, hp.symm⟩
    · simp at hsplit
  obtain ⟨rfl, rfl, rfl⟩ := hw
  exact hrun

/-- C17: at every state with no current process and an empty ready queue, each of the five
schedule functions returns none without failing and returns the state unchanged (ready
queue, resource table and every process). -/
theorem schedule_no_work (s : State) (hc : s.current = none) (hq : s.readyqueue = []) :
    fifo_schedule s = .ok (none, s) ∧ sjf_schedule s = .ok (none, s) ∧
    stcf_schedule s = .ok (none, s) ∧ rr_schedule s = .ok (none, s) ∧
    prio_schedule s = .ok (none, s) := by
  refine ⟨?_, ?_, ?_, ?_, ?_⟩
  · simp [fifo_schedule, hc, fifo_pick_next, list_first_entry, hq]
  · simp [sjf_schedule, hc, sjf_pick_next, list_empty, hq]
  · simp [stcf_schedule, hc, stcf_pick_next, list_empty, hq]
  · simp [rr_schedule, hc, rr_pick_next, list_first_entry, hq]
  · simp [prio_schedule, hc, prio_pick_next, list_first_entry, hq]

/-- Witness of C17: the five policies on `idle_state`. -/
theorem schedule_no_work_witness :
    fifo_schedule idle_state = .ok (none, idle_state) ∧
    sjf_schedule idle_state = .ok (none, idle_state) ∧
    stcf_schedule idle_state = .ok (none, idle_state) ∧
    rr_schedule idle_state = .ok (none, idle_state) ∧
    prio_schedule idle_state = .ok (none, idle_state) :=
  schedule_no_work idle_state rfl rfl

/-- With a non-empty ready queue `rr_schedule` goes to its label `pick_next`. -/
theorem rr_schedule_pick_next (s : State) (h : Nat) (t : List Nat)
    (hq : s.readyqueue = h :: t) : rr_schedule s = rr_pick_next s := by
  unfold rr_schedule
  cases hc : s.current with
  | none => rfl
  | some c =>
    by_cases hst : (s.procs c).status = PROCESS_BLOCKED
    · simp [hst]
    · simp [hst, hq, list_empty]

/-- When no scanned entry has a priority above that of `best`, the priority scan keeps
`best`. -/
theorem prio_scan_keeps (procs : Nat → process) (q : List Nat) (best : Nat)
    (hall : ∀ p ∈ q, (procs p).prio ≤ (procs best).prio) : prio_scan procs q best = best := by
  rcases prio_scan_spec procs q best with ⟨heq, -⟩ | ⟨pre, post, hsplit, hlt, -, -⟩
  · exact heq
  · have hmem : prio_scan procs q best ∈ q := by
      generalize prio_scan procs q best = w at hsplit
      rw [hsplit]; simp
    have := hall _ hmem
    omega

/-- C20: at every state in which the current process (if present) and all ready processes
have the same priority `pr`, and the current process is absent or not BLOCKED,
`prio_schedule` and `rr_schedule` give the same result: both return, with the same process
(or none) and the same state, hence the same ready queue. -/
theorem prio_equal_is_rr (s : State) (pr : Nat)
    (hcp : ∀ c, s.current = some c → (s.procs c).prio = pr)
    (hqp : ∀ p ∈ s.readyqueue, (s.procs p).prio = pr)
    (hnb : ∀ c, s.current = some c → (s.procs c).status ≠ PROCESS_BLOCKED) :
    ∃ r, rr_schedule s = .ok r ∧ prio_schedule s = .ok r := by
  cases hq : s.readyqueue with
  | nil =>
    cases hc : s.current with
    | none =>
      exact ⟨(none, s), by simp [rr_schedule, hc, rr_pick_next, list_first_entry, hq],
        by simp [prio_schedule, hc, prio_pick_next, list_first_entry, hq]⟩
    | some c =>
      have hst := hnb c hc
      by_cases hage : (s.procs c).age < (s.procs c).lifespan
      · exact ⟨(some c, s), by simp [rr_schedule, hc, hst, hq, list_empty, hage],
          by simp [prio_schedule, hc, hst, hq, list_empty, hage]⟩
      · exact ⟨(none, s),
          by simp [rr_schedule, hc, hst, hq, list_empty, hage, rr_pick_next, list_first_entry],
          by simp [prio_schedule, hc, hst, hq, list_empty, hage, prio_pick_next,
            list_first_entry]⟩
  | cons h t =>
    have hscan : prio_scan s.procs (h :: t) h = h := by
      apply prio_scan_keeps
      intro p hp
      rw [hqp p (by rw [hq]; exact hp), hqp h (by rw [hq]; simp)]
    rw [rr_schedule_pick_next s h t hq, prio_schedule_pick_next s h t hq]
    unfold rr_pick_next prio_pick_next
    simp only [list_first_entry, hq, List.head?_cons, hscan]
    cases hc : s.current with
    | none => exact ⟨_, rfl, rfl⟩
    | some c =>
      have hst := hnb c hc
      have hpc : (s.procs c).prio = (s.procs h).prio := by
        rw [hcp c hc, hqp h (by rw [hq]; simp)]
      by_cases hage : (s.procs c).age < (s.procs c).lifespan
      · refine ⟨_, rfl, ?_⟩
        simp [hst, hpc, hage, list_del_init, list_add_tail]
      · refine ⟨_, rfl, ?_⟩
        simp [hst, hpc, hage, list_del_init]

/-- Witness of C20: process `1` is current and runnable, `2` is ready, both of priority 5:
both policies return `2` and leave the ready queue `[1]`. -/
theorem prio_equal_is_rr_witness :
    ∃ r, rr_schedule prio_equal = .ok r ∧ prio_schedule prio_equal = .ok r ∧
      r.1 = some 2 ∧ r.2.readyqueue = [1] := by
  obtain ⟨r, h1, h2⟩ := prio_equal_is_rr prio_equal 5
    (fun c _ => by simp only [prio_equal]; split_ifs <;> rfl)
    (fun p _ => by simp only [prio_equal]; split_ifs <;> rfl)
    (fun c hc => by
      have hc1 : c = 1 := by simpa [prio_equal] using hc.symm
      subst hc1; decide)
  have h3 : rr_schedule prio_equal = .ok (some 2, { prio_equal with readyqueue := [1] }) := rfl
  rw [h3] at h1
  cases h1
  exact ⟨_, h3, h2, rfl, rfl⟩

/-! ### Queue invariants -/

/-- The wait-queue invariant depends only on the statuses and on the queues. -/
theorem WaitInv_same (s s' : State)
    (hp : ∀ p, (s'.procs p).status = (s.procs p).status)
    (hr : s'.readyqueue = s.readyqueue)
    (hwq : ∀ i, (s'.resources i).waitqueue = (s.resources i).waitqueue)
    (hinv : WaitInv s) : WaitInv s' := by
  obtain ⟨h1, h2, h3, h4, h5⟩ := hinv
  refine ⟨?_, ?_, ?_, ?_, ?_⟩
  · intro i p hpm; rw [hwq] at hpm; rw [hp]; exact h1 i p hpm
  · intro i p hpm; rw [hwq] at hpm; rw [hr]; exact h2 i p hpm
  · intro i j p hi hj; rw [hwq] at hi hj; exact h3 i j p hi hj
  · intro i; rw [hwq]; exact h4 i
  · intro p hpm; rw [hr] at hpm; rw [hp]; exact h5 p hpm

/-- Blocking an unqueued process on a resource keeps the wait-queue invariant. -/
theorem WaitInv_block (s s' : State) (resource_id c : Nat)
    (hp : ∀ p, (s'.procs p).status = if p = c then PROCESS_BLOCKED else (s.procs p).status)
    (hr : s'.readyqueue = s.readyqueue)
    (hwq : ∀ i, (s'.resources i).waitqueue =
      if i = resource_id then (s.resources resource_id).waitqueue ++ [c]
      else (s.resources i).waitqueue)
    (hcr : c ∉ s.readyqueue) (hcw : ∀ i, c ∉ (s.resources i).waitqueue)
    (hinv : WaitInv s) : WaitInv s' := by
  obtain ⟨h1, h2, h3, h4, h5⟩ := hinv
  have hmem : ∀ i p, p ∈ (s'.resources i).waitqueue →
      p ∈ (s.resources i).waitqueue ∨ (p = c ∧ i = resource_id) := by
    intro i p hpm
    rw [hwq] at hpm
    by_cases hi : i = resource_id
    · subst hi
      simp only [if_true, List.mem_append, List.mem_singleton] at hpm
      rcases hpm with hpm | hpm
      · exact Or.inl hpm
      · exact Or.inr ⟨hpm, rfl⟩
    · simp only [hi, if_false] at hpm
      exact Or.inl hpm
  refine ⟨?_, ?_, ?_, ?_, ?_⟩
  · intro i p hpm
    rw [hp]
    by_cases hpc : p = c
    · simp [hpc]
    · simp only [hpc, if_false]
      rcases hmem i p hpm with h | ⟨h, -⟩
      · exact h1 i p h
      · exact absurd h hpc
  · intro i p hpm
    rw [hr]
    rcases hmem i p hpm with h | ⟨rfl, -⟩
    · exact h2 i p h
    · exact hcr
  · intro i j p hi hj
    rcases hmem i p hi with hi | ⟨rfl, rfl⟩
    · rcases hmem j p hj with hj | ⟨rfl, rfl⟩
      · exact h3 i j p hi hj
      · exact absurd hi (hcw i)
    · rcases hmem j p hj with hj | ⟨-, rfl⟩
      · exact absurd hj (hcw j)
      · rfl
  · intro i
    rw [hwq]
    by_cases hi : i = resource_id
    · subst hi
      simp only [if_true]
      rw [List.nodup_append]
      refine ⟨h4 i, List.nodup_singleton c, ?_⟩
      intro a ha hac
      rw [List.mem_singleton] at hac
      subst hac
      exact hcw i ha
    · simp only [hi, if_false]; exact h4 i
  · intro p hpm
    rw [hr] at hpm
    rw [hp]
    have hpc : p ≠ c := by rintro rfl; exact hcr hpm
    simp only [hpc, if_false]
    exact h5 p hpm

/-- Waking a waiter of a resource (out of the wait queue, READY, to the ready-queue tail)
keeps the wait-queue invariant. -/
theorem WaitInv_wake (s s' : State) (resource_id w : Nat)
    (hp : ∀ p, (s'.procs p).status = if p = w then PROCESS_READY else (s.procs p).status)
    (hr : s'.readyqueue = s.readyqueue ++ [w])
    (hwq : ∀ i, (s'.resources i).waitqueue =
      if i = resource_id then (s.resources resource_id).waitqueue.erase w
      else (s.resources i).waitqueue)
    (hw : w ∈ (s.resources resource_id).waitqueue)
    (hinv : WaitInv s) : WaitInv s' := by
  obtain ⟨h1, h2, h3, h4, h5⟩ := hinv
  have hmem : ∀ i p, p ∈ (s'.resources i).waitqueue →
      p ∈ (s.resources i).waitqueue ∧ p ≠ w := by
    intro i p hpm
    rw [hwq] at hpm
    by_cases hi : i = resource_id
    · subst hi
      simp only [if_true] at hpm
      rw [(h4 i).mem_erase_iff] at hpm
      exact ⟨hpm.2, hpm.1⟩
    · simp only [hi, if_false] at hpm
      refine ⟨hpm, ?_⟩
      rintro rfl
      exact hi (h3 i resource_id p hpm hw)
  refine ⟨?_, ?_, ?_, ?_, ?_⟩
  · intro i p hpm
    obtain ⟨hin, hne⟩ := hmem i p hpm
    rw [hp]
    simp only [hne, if_false]
    exact h1 i p hin
  · intro i p hpm
    obtain ⟨hin, hne⟩ := hmem i p hpm
    rw [hr]
    simp only [List.mem_append, List.mem_singleton, not_or]
    exact ⟨h2 i p hin, hne⟩
  · intro i j p hi hj
    exact h3 i j p (hmem i p hi).1 (hmem j p hj).1
  · intro i
    rw [hwq]
    by_cases hi : i = resource_id
    · subst hi
      simp only [if_true]
      exact (h4 i).erase w
    · simp only [hi, if_false]; exact h4 i
  · intro p hpm
    rw [hp]
    by_cases hpw : p = w
    · simp [hpw]
    · simp only [hpw, if_false]
      rw [hr] at hpm
      rcases List.mem_append.mp hpm with hpm | hpm
      · exact h5 p hpm
      · exact absurd (List.mem_singleton.mp hpm) hpw

/-- C14: if every process in a wait queue is BLOCKED and in no other queue, no ready process
is BLOCKED and the current process is in no queue, then after a call of `fcfs_acquire`,
`prio_acquire`, `fcfs_release` or `prio_release` that returns, every process in a wait queue
is again BLOCKED and in exactly one queue, and no ready process is BLOCKED. -/
theorem arbitration_keeps_wait_invariant (s : State) (resource_id : Nat)
    (hinv : WaitInv s) (hcur : current_unqueued s) :
    (∀ b s', fcfs_acquire s resource_id = .ok (b, s') → WaitInv s') ∧
    (∀ b s', prio_acquire s resource_id = .ok (b, s') → WaitInv s') ∧
    (∀ s', fcfs_release s resource_id = .ok s' → WaitInv s') ∧
    (∀ s', prio_release s resource_id = .ok s' → WaitInv s') := by
  have hacq : ∀ b s', fcfs_acquire s resource_id = .ok (b, s') → WaitInv s' := by
    intro b s' hrun
    unfold fcfs_acquire at hrun
    cases ho : (s.resources resource_id).owner with
    | none =>
      simp only [ho, Except.ok.injEq, Prod.mk.injEq] at hrun
      obtain ⟨-, rfl⟩ := hrun
      refine WaitInv_same s _ (fun p => rfl) rfl ?_ hinv
      intro i
      by_cases hi : i = resource_id
      · subst hi; simp [set_owner]
      · simp [set_owner, store, hi]
    | some o =>
      cases hc : s.current with
      | none => simp [ho, hc] at hrun
      | some c =>
        simp only [ho, hc, Except.ok.injEq, Prod.mk.injEq] at hrun
        obtain ⟨-, rfl⟩ := hrun
        obtain ⟨hcr, hcw⟩ := hcur c hc
        refine WaitInv_block s _ resource_id c ?_ rfl ?_ hcr hcw hinv
        · intro p
          by_cases hp : p = c
          · subst hp; simp [set_waitqueue, set_status]
          · simp [set_waitqueue, set_status, store, hp]
        · intro i
          by_cases hi : i = resource_id
          · subst hi; simp [set_waitqueue, set_status, list_add_tail]
          · simp [set_waitqueue, set_status, store, hi]
  have hwake : ∀ w, w ∈ (s.resources resource_id).waitqueue →
      WaitInv { set_status (set_waitqueue (set_owner s resource_id none) resource_id
        (list_del_init w ((set_owner s resource_id none).resources resource_id).waitqueue))
        w PROCESS_READY with readyqueue := list_add_tail w s.readyqueue } := by
    intro w hw
    refine WaitInv_wake s _ resource_id w ?_ rfl ?_ hw hinv
    · intro p
      by_cases hp : p = w
      · subst hp; simp [set_waitqueue, set_status]
      · simp [set_waitqueue, set_status, set_owner, store, hp]
    · intro i
      by_cases hi : i = resource_id
      · subst hi; simp [set_waitqueue, set_status, set_owner, list_del_init]
      · simp [set_waitqueue, set_status, set_owner, store, hi]
  have hclear : WaitInv (set_owner s resource_id none) := by
    refine WaitInv_same s _ (fun p => rfl) rfl ?_ hinv
    intro i
    by_cases hi : i = resource_id
    · subst hi; simp [set_owner]
    · simp [set_owner, store, hi]
  refine ⟨hacq, hacq, ?_, ?_⟩
  · intro s' hrun
    unfold fcfs_release at hrun
    by_cases hoc : (s.resources resource_id).owner = s.current
    · cases hq : (s.resources resource_id).waitqueue with
      | nil =>
        simp [hoc, set_owner, list_first_entry, hq] at hrun
        subst hrun
        simpa [set_owner, hq] using hclear
      | cons w ws =>
        by_cases hst : (s.procs w).status = PROCESS_BLOCKED
        · have hw : w ∈ (s.resources resource_id).waitqueue := by rw [hq]; simp
          have := hwake w hw
          simp [hoc, set_owner, list_first_entry, hq, hst] at hrun
          subst hrun
          simpa [set_owner, hq, set_status, set_waitqueue] using this
        · simp [hoc, set_owner, list_first_entry, hq, hst] at hrun
    · simp [hoc] at hrun
  · intro s' hrun
    unfold prio_release at hrun
    by_cases hoc : (s.resources resource_id).owner = s.current
    · cases hq : (s.resources resource_id).waitqueue with
      | nil =>
        simp [hoc, set_owner, list_first_entry, hq] at hrun
        subst hrun
        simpa [set_owner, hq] using hclear
      | cons h t =>
        have hw : prio_scan s.procs (h :: t) h ∈ (s.resources resource_id).waitqueue := by
          rw [hq]; exact prio_scan_mem s.procs h t
        by_cases hst : (s.procs (prio_scan s.procs (h :: t) h)).status = PROCESS_BLOCKED
        · have := hwake _ hw
          simp [hoc, set_owner, list_first_entry, hq, hst] at hrun
          subst hrun
          simpa [set_owner, hq, set_status, set_waitqueue] using this
        · simp [hoc, set_owner, list_first_entry, hq, hst] at hrun
    · simp [hoc] at hrun

/-- The state `demo_owned` satisfies the wait-queue invariant. -/
theorem demo_owned_WaitInv : WaitInv demo_owned := by
  have hwq : ∀ i, ∀ p ∈ (demo_owned.resources i).waitqueue, i = 0 ∧ (p = 2 ∨ p = 3) := by
    intro i p hp
    by_cases hi : i = 0
    · subst hi
      exact ⟨rfl, by simpa [demo_owned] using hp⟩
    · simp [demo_owned, hi, free_resource] at hp
  refine ⟨?_, ?_, ?_, ?_, by decide⟩
  · intro i p hp
    rcases (hwq i p hp).2 with rfl | rfl <;> decide
  · intro i p hp
    rcases (hwq i p hp).2 with rfl | rfl <;> decide
  · intro i j p hi hj
    rw [(hwq i p hi).1, (hwq j p hj).1]
  · intro i
    by_cases hi : i = 0
    · subst hi; decide
    · simp [demo_owned, hi, free_resource]

/-- Witness of C14: from `demo_owned`, a blocking acquire of resource `0` by process `1`, a
granted acquire of resource `1`, and both releases of resource `0` keep the invariant. -/
theorem arbitration_keeps_wait_invariant_witness :
    (∃ s', fcfs_acquire demo_owned 0 = .ok (false, s') ∧ WaitInv s') ∧
    (∃ s', prio_acquire demo_owned 1 = .ok (true, s') ∧ WaitInv s') ∧
    (∃ s', fcfs_release demo_owned 0 = .ok s' ∧ WaitInv s') ∧
    (∃ s', prio_release demo_owned 0 = .ok s' ∧ WaitInv s') := by
  have hcur : current_unqueued demo_owned := by
    intro c hc
    have hc1 : c = 1 := by simpa [demo_owned] using hc.symm
    subst hc1
    refine ⟨by decide, ?_⟩
    intro i
    by_cases hi : i = 0
    · subst hi; decide
    · simp [demo_owned, hi, free_resource]
  exact ⟨⟨_, rfl, (arbitration_keeps_wait_invariant demo_owned 0 demo_owned_WaitInv hcur).1 _ _ rfl⟩,
    ⟨_, rfl, (arbitration_keeps_wait_invariant demo_owned 1 demo_owned_WaitInv hcur).2.1 _ _ rfl⟩,
    ⟨_, rfl, (arbitration_keeps_wait_invariant demo_owned 0 demo_owned_WaitInv hcur).2.2.1 _ rfl⟩,
    ⟨_, rfl, (arbitration_keeps_wait_invariant demo_owned 0 demo_owned_WaitInv hcur).2.2.2 _ rfl⟩⟩

/-- The state `contended` satisfies the wait-queue invariant and its current process is in
no queue. -/
theorem contended_WaitInv : WaitInv contended ∧ current_unqueued contended := by
  have hwq : ∀ i, (contended.resources i).waitqueue = [] := by
    intro i
    by_cases hi : i = 0
    · subst hi; rfl
    · simp [contended, hi, free_resource]
  refine ⟨⟨?_, ?_, ?_, ?_, ?_⟩, ?_⟩
  · intro i p hp; rw [hwq] at hp; simp at hp
  · intro i p hp; rw [hwq] at hp; simp at hp
  · intro i j p hp; rw [hwq] at hp; simp at hp
  · intro i; rw [hwq]; exact List.nodup_nil
  · intro p hp
    have : p = 3 := by simpa [contended] using hp
    subst this; decide
  · intro c hc
    have hc1 : c = 1 := by simpa [contended] using hc.symm
    subst hc1
    refine ⟨by decide, ?_⟩
    intro i; rw [hwq]; simp

/-- C13: the claim fails on the code at this input.  In `contended` the running process `1`
requests resource `0`, owned by the ready process `3`: `fcfs_acquire` blocks `1` and puts it
in the wait queue, and the resulting state satisfies the wait-queue invariant.  Called next,
`rr_schedule` and `stcf_schedule` both return `3` and append the unfinished current process
`1` to the ready queue without looking at its status: after the call the ready queue is `[1]`,
where `1` is BLOCKED and still in the wait queue of resource `0`. -/
theorem schedule_requeues_blocked_current :
    ∃ s1, fcfs_acquire contended 0 = .ok (false, s1) ∧ WaitInv s1 ∧
      s1.current = some 1 ∧ s1.readyqueue = [3] ∧ (s1.resources 0).waitqueue = [1] ∧
      (∃ s2, rr_schedule s1 = .ok (some 3, s2) ∧ s2.readyqueue = [1] ∧
        (s2.procs 1).status = PROCESS_BLOCKED ∧ (s2.resources 0).waitqueue = [1] ∧
        ¬ WaitInv s2) ∧
      (∃ s2, stcf_schedule s1 = .ok (some 3, s2) ∧ s2.readyqueue = [1] ∧
        (s2.procs 1).status = PROCESS_BLOCKED ∧ (s2.resources 0).waitqueue = [1] ∧
        ¬ WaitInv s2) := by
  have hbad : ∀ s2 : State, s2.readyqueue = [1] → (s2.procs 1).status = PROCESS_BLOCKED →
      ¬ WaitInv s2 := by
    intro s2 hq hst hinv
    exact hinv.2.2.2.2 1 (by rw [hq]; simp) hst
  refine ⟨_, rfl, ?_, rfl, rfl, rfl, ⟨_, rfl, rfl, rfl, rfl, hbad _ rfl rfl⟩,
    ⟨_, rfl, rfl, rfl, rfl, hbad _ rfl rfl⟩⟩
  refine WaitInv_block contended _ 0 1 ?_ rfl ?_ (contended_WaitInv.2 1 rfl).1
    (contended_WaitInv.2 1 rfl).2 contended_WaitInv.1
  · intro p
    by_cases hp : p = 1
    · subst hp; rfl
    · simp [set_waitqueue, set_status, store, hp]
  · intro i
    by_cases hi : i = 0
    · subst hi; rfl
    · simp [set_waitqueue, set_status, store, hi]

/-! ### Runnable results and conservation -/

/-- C18: the claim fails on the code at these inputs, where every process has
`age ≤ lifespan`.  In `sjf_sentinel_state` (nothing current, one ready process of lifespan
`1000000000`) `sjf_schedule` dereferences `NULL` and does not return.  In `stcf_blocked_long`
(current process `1` BLOCKED, one ready process of remaining time `100000000`) the scan of
`stcf_schedule` starts from `MAX_TC`, selects nothing and returns `current`: the BLOCKED
process `1`, which is not in the ready queue. -/
theorem schedule_returns_unrunnable :
    (∀ p, (sjf_sentinel_state.procs p).age ≤ (sjf_sentinel_state.procs p).lifespan) ∧
    sjf_schedule sjf_sentinel_state = .error Fault.null_dereference ∧
    ¬ OnlyRunnable sjf_schedule sjf_sentinel_state ∧
    (∀ p, (stcf_blocked_long.procs p).age ≤ (stcf_blocked_long.procs p).lifespan) ∧
    stcf_schedule stcf_blocked_long = .ok (some 1, stcf_blocked_long) ∧
    (stcf_blocked_long.procs 1).status = PROCESS_BLOCKED ∧
    1 ∉ stcf_blocked_long.readyqueue ∧
    ¬ OnlyRunnable stcf_schedule stcf_blocked_long := by
  have h1 : sjf_schedule sjf_sentinel_state = .error Fault.null_dereference := rfl
  have h2 : stcf_schedule stcf_blocked_long = .ok (some 1, stcf_blocked_long) := rfl
  refine ⟨?_, h1, ?_, ?_, h2, rfl, by decide, ?_⟩
  · intro p; simp [sjf_sentinel_state, mkproc]
  · rintro ⟨r, s', hrun, -, -⟩
    rw [h1] at hrun
    cases hrun
  · intro p
    simp only [stcf_blocked_long, mkproc]
    split_ifs <;> decide
  · rintro ⟨r, s', hrun, hres, -⟩
    rw [h2] at hrun
    simp only [Except.ok.injEq, Prod.mk.injEq] at hrun
    obtain ⟨rfl, -⟩ := hrun
    rcases hres with h | ⟨c, hc, -, hst, -⟩ | ⟨p, hp, hmem⟩
    · cases h
    · obtain rfl := Option.some.inj hc
      exact hst rfl
    · obtain rfl := Option.some.inj hp
      exact absurd hmem (by decide)

/-- C19: the claim fails on the code at this input.  In `stcf_finished_long` the current
process `1` is finished and not BLOCKED, it is not in the ready queue `[2]`, which has no
duplicates, and the ready process `2` has remaining time `100000000`.  The scan of
`stcf_schedule` starts from `MAX_TC`, selects nothing, and the function returns `current`: the
finished process `1` is handed out although it is neither ready nor unfinished, so the
processes after the call (`2` and `1`) are not those before the call (`2`). -/
theorem stcf_returns_finished_current :
    stcf_finished_long.current = some 1 ∧
    (stcf_finished_long.procs 1).status ≠ PROCESS_BLOCKED ∧
    1 ∉ stcf_finished_long.readyqueue ∧ stcf_finished_long.readyqueue.Nodup ∧
    requeued stcf_finished_long = [] ∧
    stcf_schedule stcf_finished_long = .ok (some 1, stcf_finished_long) ∧
    ¬ Conserves stcf_schedule stcf_finished_long := by
  have h2 : stcf_schedule stcf_finished_long = .ok (some 1, stcf_finished_long) := rfl
  refine ⟨rfl, by decide, by decide, by decide, rfl, h2, ?_⟩
  rintro ⟨r, s', hrun, hperm⟩
  rw [h2] at hrun
  simp only [Except.ok.injEq, Prod.mk.injEq] at hrun
  obtain ⟨rfl, rfl⟩ := hrun
  have hlen := hperm.length_eq
  revert hlen
  decide

/-! ### Whole runs -/

/-- One more tick in front of a run. -/
theorem run_succ (schedule : State → Except Fault (Option Nat × State)) (s s' : State)
    (r : Option Nat) (n : Nat) (l : List (Option Nat))
    (htick : driver_tick schedule s = .ok (r, s')) (hrest : run schedule n s' = .ok l) :
    run schedule (n + 1) s = .ok (r :: l) := by
  simp [run, htick, hrest]

/-- The process that got the CPU has aged by one. -/
theorem advance_procs_self (s : State) (h : Nat) (q : List Nat) :
    (advance s h q).procs h = { s.procs h with age := (s.procs h).age + 1 } := by
  simp [advance]

/-- The other processes are untouched by a tick. -/
theorem advance_procs_other (s : State) (h p : Nat) (q : List Nat) (hp : p ≠ h) :
    (advance s h q).procs p = s.procs p := by
  simp [advance, store, hp]

/-- A tick changes no status. -/
theorem advance_status (s : State) (h p : Nat) (q : List Nat) :
    ((advance s h q).procs p).status = (s.procs p).status := by
  by_cases hp : p = h
  · subst hp; rw [advance_procs_self]
  · rw [advance_procs_other s h p q hp]

/-- A tick changes no lifespan. -/
theorem advance_lifespan (s : State) (h p : Nat) (q : List Nat) :
    ((advance s h q).procs p).lifespan = (s.procs p).lifespan := by
  by_cases hp : p = h
  · subst hp; rw [advance_procs_self]
  · rw [advance_procs_other s h p q hp]

/-- A tick of the FCFS policy with a runnable current process: it keeps the CPU. -/
theorem fifo_tick_keep (s : State) (c : Nat) (hc : s.current = some c)
    (hst : (s.procs c).status ≠ PROCESS_BLOCKED)
    (hage : (s.procs c).age < (s.procs c).lifespan) :
    driver_tick fifo_schedule s = .ok (some c, advance s c s.readyqueue) := by
  simp [driver_tick, fifo_schedule, hc, hst, hage, advance]

/-- The FCFS policy without a runnable current process goes to its label `pick_next`. -/
theorem fifo_schedule_pick_next (s : State) (hnr : ¬ current_runnable s) :
    fifo_schedule s = fifo_pick_next s := by
  unfold fifo_schedule
  cases hc : s.current with
  | none => rfl
  | some c =>
    simp only [current_runnable, hc, not_and] at hnr
    by_cases hst : (s.procs c).status = PROCESS_BLOCKED
    · simp [hst]
    · simp [hst, hnr hst]

/-- A tick of the FCFS policy without a runnable current process: the head of the ready
queue gets the CPU. -/
theorem fifo_tick_next (s : State) (h : Nat) (t : List Nat) (hnr : ¬ current_runnable s)
    (hq : s.readyqueue = h :: t) :
    driver_tick fifo_schedule s = .ok (some h, advance s h t) := by
  simp [driver_tick, fifo_schedule_pick_next s hnr, fifo_pick_next, list_first_entry, hq,
    list_del_init, advance]

/-- A tick of the FCFS policy with nothing to run is idle. -/
theorem fifo_tick_idle (s : State) (hnr : ¬ current_runnable s) (hq : s.readyqueue = []) :
    driver_tick fifo_schedule s = .ok (none, { s with current := none }) := by
  simp [driver_tick, fifo_schedule_pick_next s hnr, fifo_pick_next, list_first_entry, hq]

/-- Once nothing is runnable the FCFS run stays idle. -/
theorem fifo_run_idle (k : Nat) : ∀ s : State, ¬ current_runnable s → s.readyqueue = [] →
    run fifo_schedule k s = .ok (List.replicate k none) := by
  induction k with
  | zero => intro s _ _; rfl
  | succ k ih =>
    intro s hnr hq
    have hrest := ih { s with current := none } (by simp [current_runnable]) hq
    rw [List.replicate_succ]
    exact run_succ _ _ _ _ _ _ (fifo_tick_idle s hnr hq) hrest

/-- A current process with `r` ticks left keeps the CPU for `r` ticks under FCFS; it is then
finished, and nothing else has changed. -/
theorem fifo_run_current (c : Nat) (r : Nat) : ∀ s : State, s.current = some c →
    (s.procs c).status ≠ PROCESS_BLOCKED → (s.procs c).age + r = (s.procs c).lifespan →
    ∃ s' : State, s'.current = some c ∧ s'.readyqueue = s.readyqueue ∧
      (s'.procs c).age = (s'.procs c).lifespan ∧
      (∀ p, p ≠ c → s'.procs p = s.procs p) ∧
      ∀ m l, run fifo_schedule m s' = .ok l →
        run fifo_schedule (r + m) s = .ok (List.replicate r (some c) ++ l) := by
  induction r with
  | zero =>
    intro s hc _ hage
    exact ⟨s, hc, rfl, by omega, fun _ _ => rfl, fun m l h => by simpa using h⟩
  | succ r ih =>
    intro s hc hst hage
    have htick := fifo_tick_keep s c hc hst (by omega)
    obtain ⟨s', hc', hq', hfin, hoth, hrun⟩ := ih (advance s c s.readyqueue) rfl
      (by rw [advance_status]; exact hst)
      (by rw [advance_procs_self]; simp only; omega)
    refine ⟨s', hc', hq', hfin, ?_, ?_⟩
    · intro p hp
      rw [hoth p hp, advance_procs_other s c p _ hp]
    · intro m l hl
      have h1 := hrun m l hl
      have h2 := run_succ _ _ _ _ _ _ htick h1
      rw [show r + 1 + m = r + m + 1 by omega, List.replicate_succ]
      exact h2

/-- The FCFS run from a state without a runnable current process: the ready processes get
the CPU in queue order, each for its whole lifespan, and the run is idle afterwards. -/
theorem fifo_run_queue (q : List Nat) : ∀ s : State, s.readyqueue = q →
    ¬ current_runnable s → q.Nodup →
    (∀ p ∈ q, (s.procs p).age = 0 ∧ 0 < (s.procs p).lifespan ∧
      (s.procs p).status ≠ PROCESS_BLOCKED) →
    ∀ k, run fifo_schedule (total_lifespan s.procs q + k) s =
      .ok (in_arrival_order s.procs q ++ List.replicate k none) := by
  induction q with
  | nil =>
    intro s hq hnr _ _ k
    simpa [total_lifespan, in_arrival_order] using fifo_run_idle k s hnr hq
  | cons h t ih =>
    intro s hq hnr hnd hall k
    obtain ⟨hage, hpos, hst⟩ := hall h (List.mem_cons_self h t)
    obtain ⟨hnotin, hndt⟩ := List.nodup_cons.mp hnd
    have htick := fifo_tick_next s h t hnr hq
    obtain ⟨s', hc', hq', hfin, hoth, hrun⟩ :=
      fifo_run_current h ((s.procs h).lifespan - 1) (advance s h t) rfl
        (by rw [advance_status]; exact hst)
        (by rw [advance_procs_self]; simp only; omega)
    have hsame : ∀ p ∈ t, s'.procs p = s.procs p := by
      intro p hp
      have hne : p ≠ h := by rintro rfl; exact hnotin hp
      rw [hoth p hne, advance_procs_other s h p t hne]
    have hnr' : ¬ current_runnable s' := by
      simp only [current_runnable, hc']
      omega
    have hrest := ih s' hq' hnr' hndt
      (by
        intro p hp
        rw [hsame p hp]
        exact hall p (List.mem_cons_of_mem h hp)) k
    have htot : total_lifespan s'.procs t = total_lifespan s.procs t := by
      unfold total_lifespan
      rw [List.map_congr_left (fun p hp => by rw [hsame p hp])]
    have hord : in_arrival_order s'.procs t = in_arrival_order s.procs t := by
      unfold in_arrival_order
      exact List.flatMap_congr (fun p hp => by rw [hsame p hp])
    rw [htot, hord] at hrest
    have h1 := hrun _ _ hrest
    have h2 := run_succ _ _ _ _ _ _ htick h1
    have hlen : total_lifespan s.procs (h :: t) + k =
        (s.procs h).lifespan - 1 + (total_lifespan s.procs t + k) + 1 := by
      simp only [total_lifespan, List.map_cons, List.sum_cons]
      omega
    have hseq : in_arrival_order s.procs (h :: t) ++ List.replicate k none =
        some h :: (List.replicate ((s.procs h).lifespan - 1) (some h) ++
          (in_arrival_order s.procs t ++ List.replicate k none)) := by
      have hL : (s.procs h).lifespan = ((s.procs h).lifespan - 1) + 1 := by omega
      simp only [in_arrival_order, List.flatMap_cons]
      nth_rewrite 1 [hL]
      rw [List.replicate_succ]
      simp
    rw [hlen, hseq]
    exact h2

/-- C15: from every state with no current process, no BLOCKED process, and a ready queue of
distinct processes of age 0 and positive lifespan, the driver running `fifo_schedule`
produces the run sequence in which each process, in queue (arrival) order, occupies the CPU
for exactly `lifespan` consecutive ticks; every later tick is idle. -/
theorem fifo_run_in_arrival_order (s : State) (hc : s.current = none)
    (hnd : s.readyqueue.Nodup)
    (hq : ∀ p ∈ s.readyqueue, (s.procs p).age = 0 ∧ 0 < (s.procs p).lifespan)
    (hnb : ∀ p, (s.procs p).status ≠ PROCESS_BLOCKED) (k : Nat) :
    run fifo_schedule (total_lifespan s.procs s.readyqueue + k) s =
      .ok (in_arrival_order s.procs s.readyqueue ++ List.replicate k none) := by
  apply fifo_run_queue s.readyqueue s rfl (by simp [current_runnable, hc]) hnd
  intro p hp
  exact ⟨(hq p hp).1, (hq p hp).2, hnb p⟩

/-- Witness of C15: the jobs `1`, `2`, `3` of lifespans 5, 2, 8: `1` runs 5 ticks, then `2`
runs 2 ticks, then `3` runs 8 ticks, and the 16th tick is idle. -/
theorem fifo_run_in_arrival_order_witness :
    run fifo_schedule 16 all_ready =
      .ok [some 1, some 1, some 1, some 1, some 1, some 2, some 2,
        some 3, some 3, some 3, some 3, some 3, some 3, some 3, some 3, none] :=
  fifo_run_in_arrival_order all_ready rfl (by decide) (by decide)
    (by intro p; simp only [all_ready, jobs, mkproc]; split_ifs <;> decide) 1

/-- Round-Robin serves the head of the effective queue: when no process is BLOCKED and the
effective queue is `h :: E`, `rr_schedule` returns `h` and the ready queue becomes `E`. -/
theorem rr_schedule_effective (s : State) (h : Nat) (E : List Nat)
    (hnb : ∀ p, (s.procs p).status ≠ PROCESS_BLOCKED)
    (heff : effective_queue s = h :: E) :
    rr_schedule s = .ok (some h, { s with readyqueue := E }) := by
  unfold effective_queue at heff
  cases hq : s.readyqueue with
  | nil =>
    rw [hq, List.nil_append] at heff
    unfold requeued at heff
    cases hc : s.current with
    | none => simp [hc] at heff
    | some c =>
      by_cases hage : (s.procs c).age < (s.procs c).lifespan
      · simp only [hc, hage, if_true, List.cons.injEq] at heff
        obtain ⟨rfl, rfl⟩ := heff
        have hs : State.mk s.procs (some c) [] s.resources = s := by
          cases s; simp_all
        rw [hs]
        simp [rr_schedule, hc, hnb c, hq, list_empty, hage]
      · simp [hc, hage] at heff
  | cons h' t =>
    rw [hq, List.cons_append, List.cons.injEq] at heff
    obtain ⟨rfl, rfl⟩ := heff
    rw [rr_schedule_pick_next s h' t hq]
    unfold rr_pick_next requeued
    cases hc : s.current with
    | none => simp [list_first_entry, hq, list_del_init]
    | some c =>
      by_cases hage : (s.procs c).age < (s.procs c).lifespan
      · simp [list_first_entry, hq, list_del_init, hage, list_add_tail]
      · simp [list_first_entry, hq, list_del_init, hage]

/-- A tick of Round-Robin: the head of the effective queue gets the CPU. -/
theorem rr_tick (s : State) (h : Nat) (E : List Nat)
    (hnb : ∀ p, (s.procs p).status ≠ PROCESS_BLOCKED)
    (heff : effective_queue s = h :: E) :
    driver_tick rr_schedule s = .ok (some h, advance s h E) := by
  simp [driver_tick, rr_schedule_effective s h E hnb heff, advance]

/-- A tick of Round-Robin with an empty effective queue is idle. -/
theorem rr_tick_idle (s : State) (hnb : ∀ p, (s.procs p).status ≠ PROCESS_BLOCKED)
    (heff : effective_queue s = []) :
    driver_tick rr_schedule s = .ok (none, { s with current := none }) := by
  unfold effective_queue at heff
  obtain ⟨hq, hreq⟩ := List.append_eq_nil.mp heff
  unfold requeued at hreq
  cases hc : s.current with
  | none => simp [driver_tick, rr_schedule, hc, rr_pick_next, list_first_entry, hq]
  | some c =>
    have hage : ¬ (s.procs c).age < (s.procs c).lifespan := by
      intro hlt
      simp [hc, hlt] at hreq
    simp [driver_tick, rr_schedule, hc, hnb c, hq, list_empty, hage, rr_pick_next,
      list_first_entry]

/-- Once the effective queue is empty the Round-Robin run stays idle. -/
theorem rr_run_idle (k : Nat) : ∀ s : State, (∀ p, (s.procs p).status ≠ PROCESS_BLOCKED) →
    effective_queue s = [] → run rr_schedule k s = .ok (List.replicate k none) := by
  induction k with
  | zero => intro s _ _; rfl
  | succ k ih =>
    intro s hnb heff
    have hq : s.readyqueue = [] := (List.append_eq_nil.mp heff).1
    have hrest := ih { s with current := none } hnb (by simp [effective_queue, requeued, hq])
    rw [List.replicate_succ]
    exact run_succ _ _ _ _ _ _ (rr_tick_idle s hnb heff) hrest

/-- The effective queue after a tick: the new ready queue, followed by the process that ran
when it is still unfinished. -/
theorem effective_queue_advance (s : State) (h : Nat) (E : List Nat) :
    effective_queue (advance s h E) =
      E ++ (if (s.procs h).age + 1 < (s.procs h).lifespan then [h] else []) := by
  simp [effective_queue, requeued, advance]

/-- One pass of Round-Robin over the processes `front` at the head of the effective queue,
all of age `a` and lifespan `k`: each runs one tick, in order, and goes behind `back` when it
is still unfinished. -/
theorem rr_round (a k : Nat) (front : List Nat) : ∀ (back : List Nat) (s : State),
    (∀ p, (s.procs p).status ≠ PROCESS_BLOCKED) →
    effective_queue s = front ++ back → front.Nodup →
    (∀ p ∈ front, (s.procs p).age = a ∧ (s.procs p).lifespan = k) →
    ∃ s' : State, (∀ p, (s'.procs p).status ≠ PROCESS_BLOCKED) ∧
      effective_queue s' = back ++ (if a + 1 < k then front else []) ∧
      (∀ p ∈ front, (s'.procs p).age = a + 1 ∧ (s'.procs p).lifespan = k) ∧
      (∀ p, p ∉ front → s'.procs p = s.procs p) ∧
      ∀ m l, run rr_schedule m s' = .ok l →
        run rr_schedule (front.length + m) s = .ok (front.map some ++ l) := by
  induction front with
  | nil =>
    intro back s hnb heff _ _
    refine ⟨s, hnb, by simpa using heff, by simp, fun _ _ => rfl, ?_⟩
    intro m l hl
    simpa using hl
  | cons h t ih =>
    intro back s hnb heff hnd hall
    obtain ⟨hnotin, hndt⟩ := List.nodup_cons.mp hnd
    obtain ⟨hage, hlife⟩ := hall h (List.mem_cons_self h t)
    have htick := rr_tick s h (t ++ back) hnb (by rw [heff]; rfl)
    have heff1 : effective_queue (advance s h (t ++ back)) =
        t ++ (back ++ (if a + 1 < k then [h] else [])) := by
      rw [effective_queue_advance, hage, hlife, List.append_assoc]
    obtain ⟨s', hnb', heff', hages, hoth, hrun⟩ :=
      ih (back ++ (if a + 1 < k then [h] else [])) (advance s h (t ++ back))
        (by intro p; rw [advance_status]; exact hnb p) heff1 hndt
        (by
          intro p hp
          have hne : p ≠ h := by rintro rfl; exact hnotin hp
          rw [advance_procs_other s h p _ hne]
          exact hall p (List.mem_cons_of_mem h hp))
    refine ⟨s', hnb', ?_, ?_, ?_, ?_⟩
    · rw [heff']
      by_cases hlt : a + 1 < k
      · simp [hlt]
      · simp [hlt]
    · intro p hp
      rcases List.mem_cons.mp hp with rfl | hp
      · rw [hoth p hnotin, advance_procs_self]
        exact ⟨by simp only; omega, hlife⟩
      · exact hages p hp
    · intro p hp
      have hne : p ≠ h := by rintro rfl; exact hp (List.mem_cons_self p t)
      have hpt : p ∉ t := fun hin => hp (List.mem_cons_of_mem h hin)
      rw [hoth p hpt, advance_procs_other s h p _ hne]
    · intro m l hl
      have h1 := hrun m l hl
      have h2 := run_succ _ _ _ _ _ _ htick h1
      rw [show (h :: t).length + m = t.length + m + 1 by simp; omega]
      simpa using h2

/-- The Round-Robin run over `d + 1` more rounds: with the processes of `q` in the effective
queue, all of age `a` and lifespan `a + (d + 1)`, the run sequence is `q` repeated `d + 1`
times, and the run is idle afterwards. -/
theorem rr_rounds (k : Nat) (q : List Nat) (hnd : q.Nodup) : ∀ (d a : Nat) (s : State),
    a + (d + 1) = k → (∀ p, (s.procs p).status ≠ PROCESS_BLOCKED) →
    effective_queue s = q → (∀ p ∈ q, (s.procs p).age = a ∧ (s.procs p).lifespan = k) →
    ∀ m, run rr_schedule (q.length * (d + 1) + m) s =
      .ok ((List.replicate (d + 1) (q.map some)).flatten ++ List.replicate m none) := by
  intro d
  induction d with
  | zero =>
    intro a s hak hnb heff hall m
    obtain ⟨s', hnb', heff', -, -, hrun⟩ :=
      rr_round a k q [] s hnb (by simpa using heff) hnd hall
    have hlt : ¬ a + 1 < k := by omega
    simp only [hlt, if_false, List.append_nil] at heff'
    have h1 := hrun m _ (rr_run_idle m s' hnb' heff')
    simpa using h1
  | succ d ih =>
    intro a s hak hnb heff hall m
    obtain ⟨s', hnb', heff', hages, -, hrun⟩ :=
      rr_round a k q [] s hnb (by simpa using heff) hnd hall
    have hlt : a + 1 < k := by omega
    simp only [hlt, if_true, List.nil_append] at heff'
    have hrest := ih (a + 1) s' (by omega) hnb' heff' hages m
    have h1 := hrun _ _ hrest
    rw [show q.length * (d + 1 + 1) + m = q.length + (q.length * (d + 1) + m) by
      rw [Nat.mul_succ]; omega]
    rw [List.replicate_succ, List.flatten_cons, List.append_assoc]
    exact h1

/-- C16: from every state with no current process, no BLOCKED process, and a ready queue of
distinct processes of age 0 that all have the same lifespan `k ≥ 1`, the driver running
`rr_schedule` produces the run sequence that is the queue (arrival) order repeated `k`
times, each process running one tick per turn; every later tick is idle. -/
theorem rr_run_round_robin (s : State) (k : Nat) (hc : s.current = none)
    (hnd : s.readyqueue.Nodup) (hk : 1 ≤ k)
    (hq : ∀ p ∈ s.readyqueue, (s.procs p).age = 0 ∧ (s.procs p).lifespan = k)
    (hnb : ∀ p, (s.procs p).status ≠ PROCESS_BLOCKED) (m : Nat) :
    run rr_schedule (s.readyqueue.length * k + m) s =
      .ok ((List.replicate k (s.readyqueue.map some)).flatten ++ List.replicate m none) := by
  obtain ⟨d, rfl⟩ : ∃ d, k = d + 1 := ⟨k - 1, by omega⟩
  exact rr_rounds (d + 1) s.readyqueue hnd d 0 s (by omega) hnb
    (by simp [effective_queue, requeued, hc]) hq m

/-- Witness of C16: the processes `1`, `2`, `3` of lifespan 3 run in the order
`1, 2, 3, 1, 2, 3, 1, 2, 3` over 9 ticks, and the 10th tick is idle. -/
theorem rr_run_round_robin_witness :
    run rr_schedule 10 rr_three =
      .ok [some 1, some 2, some 3, some 1, some 2, some 3, some 1, some 2, some 3, none] :=
  rr_run_round_robin rr_three 3 rfl (by decide) (by decide)
    (by intro p _; exact ⟨rfl, rfl⟩) (by intro p; simp [rr_three, mkproc]) 1

/-! ### The policies without a sentinel -/

/-- Removing a member of a queue and handing it out rearranges the queue. -/
theorem list_del_init_perm (w : Nat) (q : List Nat) (hw : w ∈ q) :
    List.Perm (list_del_init w q ++ [w]) q := by
  unfold list_del_init
  exact (List.perm_append_comm.trans (List.perm_cons_erase hw).symm)

/-- The FCFS policy hands out only runnable processes, at every state. -/
theorem fifo_only_runnable (s : State) : OnlyRunnable fifo_schedule s := by
  unfold OnlyRunnable
  by_cases hr : current_runnable s
  · unfold current_runnable at hr
    cases hc : s.current with
    | none => simp [hc] at hr
    | some c =>
      simp only [hc] at hr
      refine ⟨some c, s, by simp [fifo_schedule, hc, hr.1, hr.2], ?_, by simp⟩
      exact Or.inr (Or.inl ⟨c, rfl, rfl, hr.1, hr.2⟩)
  · rw [fifo_schedule_pick_next s hr]
    cases hq : s.readyqueue with
    | nil =>
      exact ⟨none, s, by simp [fifo_pick_next, list_first_entry, hq], Or.inl rfl, fun _ => rfl⟩
    | cons h t =>
      exact ⟨some h, _, by simp [fifo_pick_next, list_first_entry, hq]; rfl,
        Or.inr (Or.inr ⟨h, rfl, by simp⟩), by simp⟩

/-- Round-Robin hands out only runnable processes, at every state. -/
theorem rr_only_runnable (s : State) : OnlyRunnable rr_schedule s := by
  unfold OnlyRunnable
  cases hq : s.readyqueue with
  | nil =>
    have hpick : rr_pick_next s = .ok (none, s) := by
      simp [rr_pick_next, list_first_entry, hq]
    cases hc : s.current with
    | none =>
      exact ⟨none, s, by simp [rr_schedule, hc, hpick], Or.inl rfl, fun _ => rfl⟩
    | some c =>
      by_cases hst : (s.procs c).status = PROCESS_BLOCKED
      · exact ⟨none, s, by simp [rr_schedule, hc, hst, hpick], Or.inl rfl, fun _ => rfl⟩
      · by_cases hage : (s.procs c).age < (s.procs c).lifespan
        · exact ⟨some c, s, by simp [rr_schedule, hc, hst, hq, list_empty, hage],
            Or.inr (Or.inl ⟨c, rfl, rfl, hst, hage⟩), by simp⟩
        · exact ⟨none, s, by simp [rr_schedule, hc, hst, hq, list_empty, hage, hpick],
            Or.inl rfl, fun _ => rfl⟩
  | cons h t =>
    rw [rr_schedule_pick_next s h t hq]
    exact ⟨some h, _, by simp [rr_pick_next, list_first_entry, hq]; rfl,
      Or.inr (Or.inr ⟨h, rfl, by simp⟩), by simp⟩

/-- The two outcomes of the label `pick_next` of `prio_schedule` on a non-empty ready queue:
the scanned process is dequeued, after `current` was appended when it is present, not BLOCKED
and unfinished; or a runnable current process is returned and nothing changes. -/
theorem prio_pick_next_cases (s : State) (h : Nat) (t : List Nat)
    (hq : s.readyqueue = h :: t) :
    prio_pick_next s = .ok (some (prio_scan s.procs (h :: t) h),
      { s with readyqueue :=
          list_del_init (prio_scan s.procs (h :: t) h) (s.readyqueue ++ prio_requeued s) }) ∨
    (∃ c, s.current = some c ∧ (s.procs c).status ≠ PROCESS_BLOCKED ∧
      (s.procs c).age < (s.procs c).lifespan ∧ prio_pick_next s = .ok (some c, s)) := by
  unfold prio_pick_next prio_requeued
  simp only [list_first_entry, hq, List.head?_cons]
  generalize prio_scan s.procs (h :: t) h = w
  cases hc : s.current with
  | none => left; simp
  | some c =>
    by_cases hst : (s.procs c).status = PROCESS_BLOCKED
    · left; simp [hst]
    · by_cases hage : (s.procs c).age < (s.procs c).lifespan
      · by_cases hgt : (s.procs c).prio > (s.procs w).prio
        · right
          exact ⟨c, rfl, hst, hage, by simp [hst, hage, hgt]⟩
        · left
          have h2 : (s.procs c).prio = (s.procs w).prio ∨
              (s.procs c).prio < (s.procs w).prio := by omega
          simp [hst, hage, hgt, h2, list_add_tail]
      · left
        by_cases h2 : (s.procs c).prio = (s.procs w).prio ∨
            (s.procs c).prio < (s.procs w).prio
        · simp [hst, hage, h2]
        · simp [hst, hage, h2]

/-- The priority policy hands out only runnable processes, at every state. -/
theorem prio_only_runnable (s : State) : OnlyRunnable prio_schedule s := by
  unfold OnlyRunnable
  cases hq : s.readyqueue with
  | nil =>
    have hpick : prio_pick_next s = .ok (none, s) := by
      simp [prio_pick_next, list_first_entry, hq]
    cases hc : s.current with
    | none =>
      exact ⟨none, s, by simp [prio_schedule, hc, hpick], Or.inl rfl, fun _ => rfl⟩
    | some c =>
      by_cases hst : (s.procs c).status = PROCESS_BLOCKED
      · exact ⟨none, s, by simp [prio_schedule, hc, hst, hpick], Or.inl rfl, fun _ => rfl⟩
      · by_cases hage : (s.procs c).age < (s.procs c).lifespan
        · exact ⟨some c, s, by simp [prio_schedule, hc, hst, hq, list_empty, hage],
            Or.inr (Or.inl ⟨c, rfl, rfl, hst, hage⟩), by simp⟩
        · exact ⟨none, s, by simp [prio_schedule, hc, hst, hq, list_empty, hage, hpick],
            Or.inl rfl, fun _ => rfl⟩
  | cons h t =>
    rw [prio_schedule_pick_next s h t hq]
    rcases prio_pick_next_cases s h t hq with hrun | ⟨c, hc, hst, hage, hrun⟩
    · exact ⟨_, _, hrun, Or.inr (Or.inr ⟨_, rfl, prio_scan_mem s.procs h t⟩), by simp⟩
    · exact ⟨some c, s, hrun, Or.inr (Or.inl ⟨c, rfl, hc, hst, hage⟩), by simp⟩

/-- FCFS, Round-Robin and the priority policy hand out only runnable processes, at every
state: the call returns, its result is none, a runnable current process or a ready process,
and it is none only on an empty ready queue. -/
theorem fifo_rr_prio_only_runnable (s : State) :
    OnlyRunnable fifo_schedule s ∧ OnlyRunnable rr_schedule s ∧
    OnlyRunnable prio_schedule s :=
  ⟨fifo_only_runnable s, rr_only_runnable s, prio_only_runnable s⟩

/-- The label `pick_next` of `rr_schedule` on a non-empty ready queue. -/
theorem rr_pick_next_cons (s : State) (h : Nat) (t : List Nat) (hq : s.readyqueue = h :: t) :
    rr_pick_next s = .ok (some h, { s with readyqueue := t ++ requeued s }) := by
  unfold rr_pick_next requeued
  cases hc : s.current with
  | none => simp [list_first_entry, hq, list_del_init]
  | some c =>
    by_cases hage : (s.procs c).age < (s.procs c).lifespan
    · simp [list_first_entry, hq, list_del_init, hage, list_add_tail]
    · simp [list_first_entry, hq, list_del_init, hage]

/-- A current process that is not BLOCKED and not runnable is not re-queued. -/
theorem requeued_of_not_runnable (s : State)
    (hnb : ∀ c, s.current = some c → (s.procs c).status ≠ PROCESS_BLOCKED)
    (hnr : ¬ current_runnable s) : requeued s = [] := by
  unfold requeued
  unfold current_runnable at hnr
  cases hc : s.current with
  | none => rfl
  | some c =>
    simp only [hc, not_and] at hnr
    simp [hnr (hnb c hc)]

/-- FCFS, Round-Robin and the priority policy conserve processes at every state whose current
process is absent or not BLOCKED: the call returns, and the ready queue after the call
together with the returned process is a rearrangement of the ready queue before the call
together with the current process when that is unfinished. -/
theorem fifo_rr_prio_conserve (s : State)
    (hnb : ∀ c, s.current = some c → (s.procs c).status ≠ PROCESS_BLOCKED) :
    Conserves fifo_schedule s ∧ Conserves rr_schedule s ∧ Conserves prio_schedule s := by
  have hkeep : ∀ c, s.current = some c → (s.procs c).age < (s.procs c).lifespan →
      List.Perm (s.readyqueue ++ (some c : Option Nat).toList) (s.readyqueue ++ requeued s) := by
    intro c hc hage
    simp [requeued, hc, hage]
  have hidle : ∀ c, s.readyqueue = [] → s.current = some c →
      ¬ (s.procs c).age < (s.procs c).lifespan →
      List.Perm (s.readyqueue ++ (none : Option Nat).toList) (s.readyqueue ++ requeued s) := by
    intro c hq hc hage
    simp [requeued, hc, hage]
  refine ⟨?_, ?_, ?_⟩
  · unfold Conserves
    by_cases hr : current_runnable s
    · unfold current_runnable at hr
      cases hc : s.current with
      | none => simp [hc] at hr
      | some c =>
        simp only [hc] at hr
        exact ⟨some c, s, by simp [fifo_schedule, hc, hr.1, hr.2], hkeep c hc hr.2⟩
    · rw [fifo_schedule_pick_next s hr, requeued_of_not_runnable s hnb hr]
      cases hq : s.readyqueue with
      | nil => exact ⟨none, s, by simp [fifo_pick_next, list_first_entry, hq], by simp [hq]⟩
      | cons h t =>
        refine ⟨some h, { s with readyqueue := t },
          by simp [fifo_pick_next, list_first_entry, hq, list_del_init], ?_⟩
        simp
  · unfold Conserves
    cases hq : s.readyqueue with
    | nil =>
      have hpick : rr_pick_next s = .ok (none, s) := by
        simp [rr_pick_next, list_first_entry, hq]
      cases hc : s.current with
      | none =>
        exact ⟨none, s, by simp [rr_schedule, hc, hpick], by simp [hq, requeued, hc]⟩
      | some c =>
        have hst := hnb c hc
        by_cases hage : (s.procs c).age < (s.procs c).lifespan
        · refine ⟨some c, s, by simp [rr_schedule, hc, hst, hq, list_empty, hage], ?_⟩
          rw [← hq]; exact hkeep c hc hage
        · refine ⟨none, s, by simp [rr_schedule, hc, hst, hq, list_empty, hage, hpick], ?_⟩
          rw [← hq]; exact hidle c hq hc hage
    | cons h t =>
      rw [rr_schedule_pick_next s h t hq]
      refine ⟨some h, _, rr_pick_next_cons s h t hq, ?_⟩
      simp only [Option.toList]
      exact (List.perm_append_comm : List.Perm ((t ++ requeued s) ++ [h])
        ([h] ++ (t ++ requeued s)))
  · unfold Conserves
    cases hq : s.readyqueue with
    | nil =>
      have hpick : prio_pick_next s = .ok (none, s) := by
        simp [prio_pick_next, list_first_entry, hq]
      cases hc : s.current with
      | none =>
        exact ⟨none, s, by simp [prio_schedule, hc, hpick], by simp [hq, requeued, hc]⟩
      | some c =>
        have hst := hnb c hc
        by_cases hage : (s.procs c).age < (s.procs c).lifespan
        · refine ⟨some c, s, by simp [prio_schedule, hc, hst, hq, list_empty, hage], ?_⟩
          rw [← hq]; exact hkeep c hc hage
        · refine ⟨none, s, by simp [prio_schedule, hc, hst, hq, list_empty, hage, hpick], ?_⟩
          rw [← hq]; exact hidle c hq hc hage
    | cons h t =>
      rw [prio_schedule_pick_next s h t hq]
      have hreq : prio_requeued s = requeued s := by
        unfold prio_requeued requeued
        cases hc : s.current with
        | none => rfl
        | some c => simp [hnb c hc]
      rcases prio_pick_next_cases s h t hq with hrun | ⟨c, hc, -, hage, hrun⟩
      · refine ⟨_, _, hrun, ?_⟩
        rw [hreq, ← hq]
        apply list_del_init_perm
        rw [hq]
        exact List.mem_append_left _ (prio_scan_mem s.procs h t)
      · refine ⟨some c, s, hrun, ?_⟩
        rw [← hq]; exact hkeep c hc hage

/-! ### The ready-queue invariant under scheduling -/

/-- A state change within `ReadyFrame` keeps the wait-queue invariant. -/
theorem WaitInv_of_ReadyFrame (s s' : State) (hf : ReadyFrame s s') (hinv : WaitInv s) :
    WaitInv s' := by
  obtain ⟨hp, hres, hsub⟩ := hf
  obtain ⟨h1, h2, h3, h4, h5⟩ := hinv
  refine ⟨?_, ?_, ?_, ?_, ?_⟩
  · intro i p hpm; rw [hres] at hpm; rw [hp]; exact h1 i p hpm
  · intro i p hpm hpr
    rw [hres] at hpm
    rcases hsub p hpr with h | ⟨-, hst⟩
    · exact h2 i p hpm h
    · exact hst (h1 i p hpm)
  · intro i j p hi hj; rw [hres] at hi hj; exact h3 i j p hi hj
  · intro i; rw [hres]; exact h4 i
  · intro p hpr
    rw [hp]
    rcases hsub p hpr with h | ⟨-, hst⟩
    · exact h5 p h
    · exact hst

/-- Nothing changes within `ReadyFrame`. -/
theorem ReadyFrame_refl (s : State) : ReadyFrame s s :=
  ⟨rfl, rfl, fun _ hp => Or.inl hp⟩

/-- Removing a process from the ready queue stays within `ReadyFrame`. -/
theorem ReadyFrame_del (s : State) (n : Nat) :
    ReadyFrame s { s with readyqueue := list_del_init n s.readyqueue } :=
  ⟨rfl, rfl, fun _ hp => Or.inl (List.mem_of_mem_erase hp)⟩

/-- The label `pick_next` of `fifo_schedule` stays within `ReadyFrame`. -/
theorem fifo_pick_next_frame (s s' : State) (r : Option Nat)
    (hrun : fifo_pick_next s = .ok (r, s')) : ReadyFrame s s' := by
  unfold fifo_pick_next at hrun
  cases hq : list_first_entry s.readyqueue with
  | none =>
    simp only [hq, Except.ok.injEq, Prod.mk.injEq] at hrun
    rw [← hrun.2]; exact ReadyFrame_refl s
  | some n =>
    simp only [hq, Except.ok.injEq, Prod.mk.injEq] at hrun
    rw [← hrun.2]; exact ReadyFrame_del s n

/-- The label `pick_next` of `sjf_schedule` stays within `ReadyFrame` when it returns. -/
theorem sjf_pick_next_frame (s s' : State) (r : Option Nat)
    (hrun : sjf_pick_next s = .ok (r, s')) : ReadyFrame s s' := by
  unfold sjf_pick_next at hrun
  by_cases he : list_empty s.readyqueue = true
  · simp only [he, if_true, Except.ok.injEq, Prod.mk.injEq] at hrun
    rw [← hrun.2]; exact ReadyFrame_refl s
  · cases hn : (sjf_scan s.procs s.readyqueue (none, 1000000000)).1 with
    | none => simp [he, hn] at hrun
    | some n =>
      simp only [he, hn, if_false, Bool.false_eq_true, Except.ok.injEq, Prod.mk.injEq] at hrun
      rw [← hrun.2]; exact ReadyFrame_del s n

/-- FCFS and SJF stay within `ReadyFrame` when they return. -/
theorem fifo_sjf_frame (s s' : State) (r : Option Nat) :
    (fifo_schedule s = .ok (r, s') → ReadyFrame s s') ∧
    (sjf_schedule s = .ok (r, s') → ReadyFrame s s') := by
  constructor
  · intro hrun
    unfold fifo_schedule at hrun
    cases hc : s.current with
    | none => rw [hc] at hrun; exact fifo_pick_next_frame s s' r hrun
    | some c =>
      simp only [hc] at hrun
      split_ifs at hrun
      · exact fifo_pick_next_frame s s' r hrun
      · simp only [Except.ok.injEq, Prod.mk.injEq] at hrun
        rw [← hrun.2]; exact ReadyFrame_refl s
      · exact fifo_pick_next_frame s s' r hrun
  · intro hrun
    unfold sjf_schedule at hrun
    cases hc : s.current with
    | none => rw [hc] at hrun; exact sjf_pick_next_frame s s' r hrun
    | some c =>
      simp only [hc] at hrun
      split_ifs at hrun
      · exact sjf_pick_next_frame s s' r hrun
      · simp only [Except.ok.injEq, Prod.mk.injEq] at hrun
        rw [← hrun.2]; exact ReadyFrame_refl s
      · exact sjf_pick_next_frame s s' r hrun

/-- The priority policy stays within `ReadyFrame`: it appends `current` only when that is not
BLOCKED. -/
theorem prio_frame (s s' : State) (r : Option Nat) (hrun : prio_schedule s = .ok (r, s')) :
    ReadyFrame s s' := by
  have hsame : ∀ x : Option Nat × State, (Except.ok x : Except Fault _) = .ok (r, s') →
      x.2 = s → ReadyFrame s s' := by
    intro x hx hxs
    simp only [Except.ok.injEq] at hx
    rw [hx] at hxs
    simp only at hxs
    rw [hxs]; exact ReadyFrame_refl s
  cases hq : s.readyqueue with
  | nil =>
    have hpick : prio_pick_next s = .ok (none, s) := by
      simp [prio_pick_next, list_first_entry, hq]
    unfold prio_schedule at hrun
    cases hc : s.current with
    | none => rw [hc, hpick] at hrun; exact hsame _ hrun rfl
    | some c =>
      simp only [hc, hpick] at hrun
      split_ifs at hrun <;> exact hsame _ hrun rfl
  | cons h t =>
    rw [prio_schedule_pick_next s h t hq] at hrun
    rcases prio_pick_next_cases s h t hq with hres | ⟨c, -, -, -, hres⟩
    · rw [hres] at hrun
      simp only [Except.ok.injEq, Prod.mk.injEq] at hrun
      rw [← hrun.2]
      refine ⟨rfl, rfl, ?_⟩
      intro p hp
      have hp' := List.mem_of_mem_erase hp
      rcases List.mem_append.mp hp' with hp' | hp'
      · exact Or.inl hp'
      · right
        unfold prio_requeued at hp'
        cases hc : s.current with
        | none => simp [hc] at hp'
        | some c =>
          simp only [hc] at hp'
          split_ifs at hp' with hcond
          · rw [List.mem_singleton] at hp'
            subst hp'
            exact ⟨rfl, hcond.1⟩
          · simp at hp'
    · rw [hres] at hrun
      exact hsame _ hrun rfl

/-- A process re-queued for the current process is the current process. -/
theorem mem_requeued (s : State) (p : Nat) (hp : p ∈ requeued s) : s.current = some p := by
  unfold requeued at hp
  cases hc : s.current with
  | none => simp [hc] at hp
  | some c =>
    simp only [hc] at hp
    split_ifs at hp
    · rw [List.mem_singleton] at hp
      rw [hp]
    · simp at hp

/-- Round-Robin stays within `ReadyFrame` when the current process is absent or not
BLOCKED. -/
theorem rr_frame (s s' : State) (r : Option Nat)
    (hnb : ∀ c, s.current = some c → (s.procs c).status ≠ PROCESS_BLOCKED)
    (hrun : rr_schedule s = .ok (r, s')) : ReadyFrame s s' := by
  have hsame : ∀ x : Option Nat × State, (Except.ok x : Except Fault _) = .ok (r, s') →
      x.2 = s → ReadyFrame s s' := by
    intro x hx hxs
    simp only [Except.ok.injEq] at hx
    rw [hx] at hxs
    simp only at hxs
    rw [hxs]; exact ReadyFrame_refl s
  cases hq : s.readyqueue with
  | nil =>
    have hpick : rr_pick_next s = .ok (none, s) := by
      simp [rr_pick_next, list_first_entry, hq]
    unfold rr_schedule at hrun
    cases hc : s.current with
    | none => rw [hc, hpick] at hrun; exact hsame _ hrun rfl
    | some c =>
      simp only [hc, hpick] at hrun
      split_ifs at hrun <;> exact hsame _ hrun rfl
  | cons h t =>
    rw [rr_schedule_pick_next s h t hq, rr_pick_next_cons s h t hq] at hrun
    simp only [Except.ok.injEq, Prod.mk.injEq] at hrun
    rw [← hrun.2]
    refine ⟨rfl, rfl, ?_⟩
    intro p hp
    rcases List.mem_append.mp hp with hp | hp
    · exact Or.inl (by rw [hq]; exact List.mem_cons_of_mem h hp)
    · have hc := mem_requeued s p hp
      exact Or.inr ⟨hc, hnb p hc⟩

/-- The label `pick_next` of `stcf_schedule` stays within `ReadyFrame` when the current
process is absent or not BLOCKED. -/
theorem stcf_pick_next_frame (s s' : State) (r : Option Nat) (cur_tc : Nat)
    (hnb : ∀ c, s.current = some c → (s.procs c).status ≠ PROCESS_BLOCKED)
    (hrun : stcf_pick_next s cur_tc = .ok (r, s')) : ReadyFrame s s' := by
  unfold stcf_pick_next at hrun
  by_cases he : list_empty s.readyqueue = true
  · simp only [he, if_true, Except.ok.injEq, Prod.mk.injEq] at hrun
    rw [← hrun.2]; exact ReadyFrame_refl s
  · cases hn : (stcf_scan s.procs s.readyqueue (none, cur_tc)).1 with
    | none =>
      simp only [he, hn, if_false, Bool.false_eq_true, Except.ok.injEq, Prod.mk.injEq] at hrun
      rw [← hrun.2]; exact ReadyFrame_refl s
    | some n =>
      simp only [he, hn, if_false, Bool.false_eq_true, Except.ok.injEq, Prod.mk.injEq] at hrun
      rw [← hrun.2]
      refine ⟨rfl, rfl, ?_⟩
      intro p hp
      have hp' := List.mem_of_mem_erase hp
      cases hc : s.current with
      | none => rw [hc] at hp'; exact Or.inl hp'
      | some c =>
        simp only [hc] at hp'
        split_ifs at hp'
        · rcases List.mem_append.mp hp' with hp' | hp'
          · exact Or.inl hp'
          · rw [List.mem_singleton] at hp'
            subst hp'
            exact Or.inr ⟨rfl, hnb p hc⟩
        · exact Or.inl hp'

/-- STCF stays within `ReadyFrame` when the current process is absent or not BLOCKED. -/
theorem stcf_frame (s s' : State) (r : Option Nat)
    (hnb : ∀ c, s.current = some c → (s.procs c).status ≠ PROCESS_BLOCKED)
    (hrun : stcf_schedule s = .ok (r, s')) : ReadyFrame s s' := by
  unfold stcf_schedule at hrun
  cases hc : s.current with
  | none => rw [hc] at hrun; exact stcf_pick_next_frame s s' r _ hnb hrun
  | some c =>
    simp only [hc] at hrun
    split_ifs at hrun
    · exact stcf_pick_next_frame s s' r _ hnb hrun
    · simp only [Except.ok.injEq, Prod.mk.injEq] at hrun
      rw [← hrun.2]; exact ReadyFrame_refl s
    · exact stcf_pick_next_frame s s' r _ hnb hrun
    · exact stcf_pick_next_frame s s' r _ hnb hrun

/-- The ready-queue invariant under scheduling, where it holds: a returning call of
`fifo_schedule`, `sjf_schedule` or `prio_schedule` keeps the wait-queue invariant at every
state, also with a BLOCKED current process; a returning call of `rr_schedule` or
`stcf_schedule` keeps it when the current process is absent or not BLOCKED. -/
theorem schedule_keeps_wait_invariant (s s' : State) (r : Option Nat) (hinv : WaitInv s) :
    (fifo_schedule s = .ok (r, s') → WaitInv s') ∧
    (sjf_schedule s = .ok (r, s') → WaitInv s') ∧
    (prio_schedule s = .ok (r, s') → WaitInv s') ∧
    ((∀ c, s.current = some c → (s.procs c).status ≠ PROCESS_BLOCKED) →
      (rr_schedule s = .ok (r, s') → WaitInv s') ∧
      (stcf_schedule s = .ok (r, s') → WaitInv s')) :=
  ⟨fun h => WaitInv_of_ReadyFrame s s' ((fifo_sjf_frame s s' r).1 h) hinv,
   fun h => WaitInv_of_ReadyFrame s s' ((fifo_sjf_frame s s' r).2 h) hinv,
   fun h => WaitInv_of_ReadyFrame s s' (prio_frame s s' r h) hinv,
   fun hnb => ⟨fun h => WaitInv_of_ReadyFrame s s' (rr_frame s s' r hnb h) hinv,
     fun h => WaitInv_of_ReadyFrame s s' (stcf_frame s s' r hnb h) hinv⟩⟩

end PA2
